import Mathlib

/-!
Verification development for the FlightNetworkAnalysis repository.

The repository analyses an airline route network with `networkx` graphs and
simulates robustness under progressive node removal.  This file gives a
shallow embedding of the data model (finite undirected graphs over natural
number node identifiers) and of the functions of `src/attack.py` and
`src/analysis_re.py` that the robustness claims are about, and proves or
refutes each claim.

Graphs are lists of node identifiers together with a list of edges
(unordered pairs of identifiers) and per-node attribute payloads, mirroring
the mutable `networkx.Graph` objects.  Connected components are computed by
a bounded closure iteration (`stepCl` iterated once per node), which reaches
the full reachable set because a shortest path uses fewer than `|V|` edges.
-/

namespace FlightNet

/-- A finite undirected graph as stored by `networkx`: node identifiers,
edges (unordered pairs represented by ordered pairs), and per-node string
attributes. -/
structure Graph where
  nodes : List Nat
  edges : List (Nat × Nat)
  attrs : List (Nat × String)
deriving DecidableEq, Repr

/-- The empty graph. -/
def emptyGraph : Graph := ⟨[], [], []⟩

/-- Undirected adjacency: an edge is present in either orientation. -/
def adjb (G : Graph) (u v : Nat) : Bool :=
  decide ((u, v) ∈ G.edges) || decide ((v, u) ∈ G.edges)

/-- `G.remove_node(x)`: drop the node, every incident edge, and its
attributes (mirrors `networkx.Graph.remove_node`). -/
def removeNode (G : Graph) (x : Nat) : Graph :=
  ⟨G.nodes.erase x,
   G.edges.filter (fun e => e.1 ≠ x && e.2 ≠ x),
   G.attrs.filter (fun a => a.1 ≠ x)⟩

/-- Induced subgraph on a set of nodes (mirrors `G.subgraph(S)`): keeps the
nodes of `S` (in stored order), the edges with both ends in `S`, and their
attributes. -/
def inducedSubgraph (G : Graph) (S : Finset Nat) : Graph :=
  ⟨G.nodes.filter (fun v => v ∈ S),
   G.edges.filter (fun e => e.1 ∈ S && e.2 ∈ S),
   G.attrs.filter (fun a => a.1 ∈ S)⟩

/-- One step of reachability closure: add every node of `G` adjacent to the
current set. -/
def stepCl (G : Graph) (s : Finset Nat) : Finset Nat :=
  s ∪ G.nodes.toFinset.filter (fun v => ∃ u ∈ s, adjb G u v)

/-- Reachable set from `r`: the closure step iterated once per node of `G`,
which suffices because shortest paths use fewer than `|V|` edges. -/
def compOf (G : Graph) (r : Nat) : Finset Nat :=
  (stepCl G)^[G.nodes.length] {r}

/-- A subgraph relation tailored to node removal: node containment, adjacency
containment, and no more nodes. -/
def IsSubgraphOf (H G : Graph) : Prop :=
  (∀ x, x ∈ H.nodes → x ∈ G.nodes) ∧
  (∀ u v, adjb H u v = true → adjb G u v = true) ∧
  H.nodes.length ≤ G.nodes.length

/-- Worker for `nx.connected_components`: scan the node list, emitting the
reachable set of every node not seen in an earlier component. -/
def compsRec (G : Graph) : List Nat → Finset Nat → List (Finset Nat)
  | [], _ => []
  | v :: vs, seen =>
    if v ∈ seen then compsRec G vs seen
    else compOf G v :: compsRec G vs (seen ∪ compOf G v)

/-- `list(nx.connected_components(G))`: the components in order of first
appearance of a member in the node list. -/
def connected_components (G : Graph) : List (Finset Nat) :=
  compsRec G G.nodes ∅

/-- `max(comps, key=len)`: the first component of maximal size (Python's
`max` keeps the earliest maximum); `none` on an empty list (where Python
raises `ValueError`). -/
def maxByLen (l : List (Finset Nat)) : Option (Finset Nat) :=
  match l with
  | [] => none
  | c :: cs => some (cs.foldl (fun best x => if best.card < x.card then x else best) c)

/-- The value of `metrics['lcc_size']`: size of the largest connected
component, `0` for the empty graph. -/
def lcc_size (G : Graph) : Nat :=
  match maxByLen (connected_components G) with
  | none => 0
  | some c => c.card

/-- `get_giant_component` (analysis_re.py): induced subgraph on the largest
connected component; `none` models the `ValueError` that `max` raises on a
graph with zero nodes. -/
def get_giant_component (G : Graph) : Option Graph :=
  (maxByLen (connected_components G)).map (fun c => inducedSubgraph G c)

/-- Pairwise reachability inside the graph itself. -/
def ConnectedGraph (H : Graph) : Prop :=
  ∀ u ∈ H.nodes, ∀ v ∈ H.nodes, v ∈ compOf H u

/-- `nx.shortest_path_length(G, u, v)` for unweighted graphs: the least
number of edges on a path, found as the first radius whose closure ball
contains the target; `none` models the `NetworkXNoPath` exception. -/
def distB (G : Graph) (u v : Nat) : Option Nat :=
  (List.range (G.nodes.length + 1)).find? (fun k => decide (v ∈ (stepCl G)^[k] {u}))

/-- Reciprocal-distance efficiency of one ordered pair (0 when no path),
as used by `nx.global_efficiency`. -/
def pairEff (G : Graph) (u v : Nat) : ℚ :=
  match distB G u v with
  | none => 0
  | some d => if d = 0 then 0 else (1 : ℚ) / (d : ℚ)

/-- `nx.global_efficiency`: mean of pairwise efficiencies over ordered pairs
of distinct nodes (0 when there are fewer than two nodes). -/
def global_efficiency (G : Graph) : ℚ :=
  let n := G.nodes.length
  if n < 2 then 0
  else ((G.nodes.map
      (fun u => ((G.nodes.filter (fun v => v ≠ u)).map (pairEff G u)).sum)).sum) /
    ((n : ℚ) * ((n : ℚ) - 1))

/-- Number of adjacent unordered pairs inside a neighbour list (triangles
through the centre). -/
def triPairs (G : Graph) (ns : List Nat) : Nat :=
  (ns.map (fun a => (ns.filter (fun b => a < b && adjb G a b)).length)).sum

/-- Local clustering coefficient of one node (0 when degree is below 2),
as in `nx.clustering`. -/
def localClustering (G : Graph) (v : Nat) : ℚ :=
  let ns := G.nodes.filter (fun w => w ≠ v && adjb G v w)
  let d := ns.length
  if d < 2 then 0
  else (2 * (triPairs G ns : ℚ)) / ((d : ℚ) * ((d : ℚ) - 1))

/-- `nx.average_clustering`: mean local clustering over all nodes. -/
def average_clustering (G : Graph) : ℚ :=
  if G.nodes.length = 0 then 0
  else (G.nodes.map (localClustering G)).sum / (G.nodes.length : ℚ)

/-- Whether some ordered pair of distinct nodes has no connecting path
(makes `nx.average_shortest_path_length` raise). -/
def asplDisconnected (H : Graph) : Bool :=
  H.nodes.any (fun u => H.nodes.any (fun v => v ≠ u && (distB H u v).isNone))

/-- Sum of all ordered-pair shortest-path lengths. -/
def asplSum (H : Graph) : ℚ :=
  (H.nodes.map
    (fun u => ((H.nodes.filter (fun v => v ≠ u)).map
      (fun v => ((distB H u v).getD 0 : ℚ))).sum)).sum

/-- `nx.average_shortest_path_length`: `none` models the exception raised on
a disconnected graph (caught by `metrics_on_graph`). -/
def average_shortest_path_length (H : Graph) : Option ℚ :=
  if asplDisconnected H then none
  else some (asplSum H / ((H.nodes.length : ℚ) * ((H.nodes.length : ℚ) - 1)))

/-- The summary record built by `metrics_on_graph` (attack.py); `none` in a
field models a `NaN` entry. -/
structure Metrics where
  n_nodes : Nat
  n_edges : Nat
  lcc_size : Nat
  lcc_fraction : ℚ
  avg_path_length : Option ℚ
  avg_clustering : Option ℚ
  global_efficiency : ℚ
  n_components : Nat
deriving DecidableEq, Repr

/-- `metrics_on_graph(G)` (attack.py): summary metrics, with the early
return of constants on a graph with zero nodes. -/
def metrics_on_graph (G : Graph) : Metrics :=
  if G.nodes.length = 0 then
    { n_nodes := 0, n_edges := G.edges.length, lcc_size := 0, lcc_fraction := 0,
      avg_path_length := none, avg_clustering := none,
      global_efficiency := 0, n_components := 0 }
  else
    let comps := connected_components G
    let lcc := (maxByLen comps).getD ∅
    let lccSub := inducedSubgraph G lcc
    let lccSize := lccSub.nodes.length
    { n_nodes := G.nodes.length, n_edges := G.edges.length,
      lcc_size := lccSize,
      lcc_fraction := (lccSize : ℚ) / (G.nodes.length : ℚ),
      avg_clustering := some (average_clustering G),
      avg_path_length :=
        if 1 < lccSize then average_shortest_path_length lccSub else none,
      global_efficiency := global_efficiency G,
      n_components := comps.length }

/-- Python 3 `round` on an exact rational: round half to even. -/
def pyRound (x : ℚ) : ℤ :=
  if x - (⌊x⌋ : ℚ) < 1/2 then ⌊x⌋
  else if 1/2 < x - (⌊x⌋ : ℚ) then ⌊x⌋ + 1
  else if ⌊x⌋ % 2 = 0 then ⌊x⌋ else ⌊x⌋ + 1

/-- Python `int(...)` on a rational value: truncation toward zero. -/
def pyTrunc (x : ℚ) : ℤ :=
  if 0 ≤ x then ⌊x⌋ else -⌊-x⌋

/-- Worker for `pyDedup`, carrying the values already emitted. -/
def pyDedupGo (seen : List ℤ) : List ℤ → List ℤ
  | [] => []
  | x :: xs =>
    if x ∈ seen then pyDedupGo seen xs
    else x :: pyDedupGo (x :: seen) xs

/-- `dict.fromkeys(...)` deduplication: keep the first occurrence of each
value, in order. -/
def pyDedup (l : List ℤ) : List ℤ :=
  pyDedupGo [] l

/-- `removal_sequence_by_fraction(nodes_list, steps, max_frac)` (attack.py):
cumulative removal counts `round(i * max_remove / steps)`, deduplicated and
sorted ascending. -/
def removal_sequence_by_fraction (nodes_list : List Nat) (steps : Nat)
    (max_frac : ℚ) : List ℤ :=
  let n := nodes_list.length
  let max_remove : ℤ := ⌊(n : ℚ) * max_frac⌋
  let cum := (List.range (steps + 1)).map
    (fun i : Nat => pyRound ((i : ℚ) * (max_remove : ℚ) / (steps : ℚ)))
  List.insertionSort (fun a b => a ≤ b) (pyDedup cum)

/-- A concrete deterministic word stream standing in for the seeded
pseudo-random generators of the scripts (`random.seed`,
`np.random.default_rng(seed)`).  The spec only requires the generators to be
deterministic functions of the seed; every property proved below about
shuffling and pair sampling holds for an arbitrary stream and is
instantiated at this one. -/
def npStream (seed : Nat) (k : Nat) : Nat :=
  (seed * 2654435761 + k * 40503 + 9176) % 104729

/-- A Fisher and Yates style shuffle driven by an arbitrary index stream:
repeatedly move the element at the drawn index to the front of the result.
This models `random.shuffle` / `rng.shuffle`, whose output is some
permutation of the input determined by the seeded generator. -/
def shuffleGo (stream : Nat → Nat) : Nat → Nat → List Nat → List Nat
  | _, 0, l => l
  | k, Nat.succ fuel, l =>
    match l.drop (stream k % l.length) with
    | [] => l
    | x :: b => x :: shuffleGo stream (k + 1) fuel (l.take (stream k % l.length) ++ b)

/-- One application of the shuffle: the fuel `l.length` always suffices
because each draw moves one element out. -/
def shuffleWith (stream : Nat → Nat) (k : Nat) (l : List Nat) : List Nat :=
  shuffleGo stream k l.length l

/-- `nodes_order_random(G, seed)` (analysis_re.py): shuffle a copy of the
node list with a generator seeded by `seed`. -/
def nodes_order_random (G : Graph) (seed : Nat) : List Nat :=
  shuffleWith (npStream seed) 0 G.nodes

/-- Outcome of running a piece of Python code: a value, or a raised
exception. -/
inductive PyResult (α : Type) where
  | ok : α → PyResult α
  | exn : PyResult α
deriving DecidableEq, Repr

/-- The `while len(pairs) < m` loop of `sample_pairs` (analysis_re.py),
with explicit fuel: `none` means the loop is still running after `fuel`
iterations (it never exits on its own in that case), `some exn` models the
`ValueError` that `rng.choice` raises on an empty list. -/
def sample_pairsLoop (nodes : List Nat) (m : Nat) (stream : Nat → Nat) :
    Nat → Nat → Finset (Nat × Nat) → Option (PyResult (Finset (Nat × Nat)))
  | _, 0, pairs =>
    if m ≤ pairs.card then some (PyResult.ok pairs)
    else if nodes.length = 0 then some PyResult.exn
    else none
  | step, Nat.succ fuel, pairs =>
    if m ≤ pairs.card then some (PyResult.ok pairs)
    else if nodes.length = 0 then some PyResult.exn
    else if nodes.getD (stream step % nodes.length) 0 ≠
        nodes.getD (stream (step + 1) % nodes.length) 0 then
      sample_pairsLoop nodes m stream (step + 2) fuel
        (insert
          (if nodes.getD (stream (step + 1) % nodes.length) 0 <
              nodes.getD (stream step % nodes.length) 0 then
            (nodes.getD (stream (step + 1) % nodes.length) 0,
             nodes.getD (stream step % nodes.length) 0)
          else
            (nodes.getD (stream step % nodes.length) 0,
             nodes.getD (stream (step + 1) % nodes.length) 0)) pairs)
    else
      sample_pairsLoop nodes m stream (step + 2) fuel pairs

/-- `sample_pairs(nodes, m, rng)` (analysis_re.py): draw node pairs until
`m` distinct normalised pairs of distinct nodes have been collected. -/
def sample_pairs (nodes : List Nat) (m : Nat) (stream : Nat → Nat)
    (fuel : Nat) : Option (PyResult (Finset (Nat × Nat))) :=
  sample_pairsLoop nodes m stream 0 fuel ∅

/-- The pairs of a sample that the averaging loop of `approx_efficiency`
counts: distance defined and positive. -/
def effGood (G : Graph) (P : Finset (Nat × Nat)) : Finset (Nat × Nat) :=
  P.filter (fun p => (distB G p.1 p.2).getD 0 ≠ 0)

/-- The accumulated sum `s` of `approx_efficiency`. -/
def effSum (G : Graph) (P : Finset (Nat × Nat)) : ℚ :=
  (effGood G P).sum (fun p => 1 / (((distB G p.1 p.2).getD 0 : Nat) : ℚ))

/-- `approx_efficiency(G, m, seed)` (analysis_re.py): sample pairs, then
average the reciprocal distances of the pairs that have a path, dividing by
`max(cnt, 1)`. -/
def approx_efficiency (G : Graph) (m : Nat) (seed : Nat) (fuel : Nat) :
    Option (PyResult ℚ) :=
  match sample_pairs G.nodes m (npStream seed) fuel with
  | none => none
  | some PyResult.exn => some PyResult.exn
  | some (PyResult.ok P) =>
      some (PyResult.ok (effSum G P / ((max (effGood G P).card 1 : Nat) : ℚ)))

/-- Formalisation of the spec sentence for `approx_efficiency`: the average
of `1/distance(u,v)` over the sampled pairs, where a pair with no
connecting path contributes neither to the numerator sum nor to the
averaging denominator count (so with zero counted pairs the value is 0). -/
def specApproxEfficiency (G : Graph) (P : Finset (Nat × Nat)) : ℚ :=
  let withPath := P.filter (fun p => (distB G p.1 p.2).isSome)
  (withPath.sum (fun p => 1 / (((distB G p.1 p.2).getD 0 : Nat) : ℚ))) /
    ((max withPath.card 1 : Nat) : ℚ)

/-! ### The object store

The scripts mutate `networkx` graph objects in place.  To state the claims
about what happens to the caller's graph object, the simulation entry points
are also embedded against an explicit store (`List Graph`) of graph objects
addressed by handles; `G.copy()` appends a fresh object and in-place node
removal overwrites one slot.  The `...H` functions below are those
store-instrumented embeddings; the plain functions are the value-level
embeddings of the same source lines. -/

/-- Read a graph object from the store. -/
def hget (heap : List Graph) (i : Nat) : Graph :=
  heap.getD i emptyGraph

/-- In-place `remove_node` on the store object at handle `i`. -/
def hremove (heap : List Graph) (i : Nat) (x : Nat) : List Graph :=
  heap.set i (removeNode (hget heap i) x)

/-- The inner removal loop of `removal_curve` (analysis_re.py): pull nodes
from the remaining order until the cumulative count reaches the target or
the order iterator is exhausted.  Value-level version. -/
def rcLoopP : Graph → List Nat → Nat → ℤ → Graph × List Nat × Nat
  | G, [], cnt, _ => (G, [], cnt)
  | G, u :: rest, cnt, target =>
    if (cnt : ℤ) < target then
      if u ∈ G.nodes then rcLoopP (removeNode G u) rest (cnt + 1) target
      else rcLoopP G rest cnt target
    else (G, u :: rest, cnt)

/-- Store-instrumented version of the inner removal loop of
`removal_curve`. -/
def rcLoopH (h0 : Nat) : List Graph → List Nat → Nat → ℤ → List Graph × List Nat × Nat
  | heap, [], cnt, _ => (heap, [], cnt)
  | heap, u :: rest, cnt, target =>
    if (cnt : ℤ) < target then
      if u ∈ (hget heap h0).nodes then
        rcLoopH h0 (hremove heap h0 u) rest (cnt + 1) target
      else rcLoopH h0 heap rest cnt target
    else (heap, u :: rest, cnt)

/-- One `(q, S, E, L)` tuple appended by `removal_curve`. -/
structure RcRecord where
  q : ℚ
  S : ℚ
  E : ℚ
  L : Option ℚ
deriving DecidableEq, Repr

/-- The checkpoint loop of `removal_curve`, value-level.  `none` means the
run never produces a result (the pair-sampling loop inside
`approx_efficiency` never exits, or an exception propagates). -/
def rcCheckpointsP (m_pairs effFuel n0 : Nat) (H : Graph) (order : List Nat)
    (cnt : Nat) : List ℚ → Option (List RcRecord)
  | [] => some []
  | q :: qs =>
    let target := pyTrunc (q * (n0 : ℚ))
    let st := rcLoopP H order cnt target
    let H1 := st.1
    if H1.nodes.length = 0 then
      match rcCheckpointsP m_pairs effFuel n0 H1 st.2.1 st.2.2 qs with
      | none => none
      | some recs => some (⟨q, 0, 0, none⟩ :: recs)
    else
      let gcc := (maxByLen (connected_components H1)).getD ∅
      let S : ℚ := (gcc.card : ℚ) / (n0 : ℚ)
      let Gsub := inducedSubgraph H1 gcc
      match approx_efficiency Gsub m_pairs 123 effFuel with
      | none => none
      | some PyResult.exn => none
      | some (PyResult.ok E) =>
        let L := average_shortest_path_length Gsub
        match rcCheckpointsP m_pairs effFuel n0 H1 st.2.1 st.2.2 qs with
        | none => none
        | some recs => some (⟨q, S, E, L⟩ :: recs)

/-- `removal_curve(G, nodes_order, qs, m_pairs)` (analysis_re.py),
value-level: work on a copy of `G`, removing prefixes of `nodes_order` and
recording `(q, S(q), E(q), L(q))` at each fraction. -/
def removal_curve (G : Graph) (nodes_order : List Nat) (qs : List ℚ)
    (m_pairs effFuel : Nat) : Option (List RcRecord) :=
  rcCheckpointsP m_pairs effFuel G.nodes.length G nodes_order 0 qs

/-- The checkpoint loop of `removal_curve` against the store. -/
def rcCheckpointsH (m_pairs effFuel n0 : Nat) (heap : List Graph) (h0 : Nat)
    (order : List Nat) (cnt : Nat) : List ℚ → Option (List Graph × List RcRecord)
  | [] => some (heap, [])
  | q :: qs =>
    let target := pyTrunc (q * (n0 : ℚ))
    let st := rcLoopH h0 heap order cnt target
    let heap1 := st.1
    let H1 := hget heap1 h0
    if H1.nodes.length = 0 then
      match rcCheckpointsH m_pairs effFuel n0 heap1 h0 st.2.1 st.2.2 qs with
      | none => none
      | some (heapF, recs) => some (heapF, ⟨q, 0, 0, none⟩ :: recs)
    else
      let gcc := (maxByLen (connected_components H1)).getD ∅
      let S : ℚ := (gcc.card : ℚ) / (n0 : ℚ)
      let Gsub := inducedSubgraph H1 gcc
      match approx_efficiency Gsub m_pairs 123 effFuel with
      | none => none
      | some PyResult.exn => none
      | some (PyResult.ok E) =>
        let L := average_shortest_path_length Gsub
        match rcCheckpointsH m_pairs effFuel n0 heap1 h0 st.2.1 st.2.2 qs with
        | none => none
        | some (heapF, recs) => some (heapF, ⟨q, S, E, L⟩ :: recs)

/-- `removal_curve` against the store: `H = G.copy()` allocates a fresh
slot, all removals hit that slot. -/
def removal_curveH (heap : List Graph) (h : Nat) (nodes_order : List Nat)
    (qs : List ℚ) (m_pairs effFuel : Nat) : Option (List Graph × List RcRecord) :=
  let G := hget heap h
  rcCheckpointsH m_pairs effFuel G.nodes.length (heap ++ [G]) heap.length
    nodes_order 0 qs

/-- The four attack strategies accepted by `simulate_targeted_attack`. -/
inductive AttackKey where
  | degree
  | betweenness
  | closeness
  | eigenvector
deriving DecidableEq, Repr

/-- The `method` string written into each record. -/
def keyString : AttackKey → String
  | AttackKey.degree => "targeted_degree"
  | AttackKey.betweenness => "targeted_betweenness"
  | AttackKey.closeness => "targeted_closeness"
  | AttackKey.eigenvector => "targeted_eigenvector"

/-- Numeric centrality routines of the external graph library, abstracted:
the claims are control-flow claims, so the scores are oracle parameters.
`eigNumpy G = none` models `nx.eigenvector_centrality_numpy` raising, and
`eigPower G = none` models `nx.eigenvector_centrality(..., max_iter=200)`
raising `PowerIterationFailedConvergence`. -/
structure CentralityOracles where
  betw : Graph → Nat → ℚ
  close : Graph → Nat → ℚ
  eigNumpy : Graph → Option (Nat → ℚ)
  eigPower : Graph → Option (Nat → ℚ)

/-- Degree of a node: number of distinct neighbours. -/
def degreeOf (G : Graph) (v : Nat) : Nat :=
  (G.nodes.filter (fun w => w ≠ v && adjb G v w)).length

/-- Stable descending sort by a score, as Python's
`sorted(..., key=score, reverse=True)` (stable: ties keep list order). -/
def sortDescBy (f : Nat → ℚ) (l : List Nat) : List Nat :=
  List.insertionSort (fun a b => f b ≤ f a) l

/-- The `try: eigenvector_centrality_numpy except: eigenvector_centrality`
block (attack.py lines 120-123 and 155-158): fall back to power iteration
when the numpy routine raises; a failure of the fallback propagates. -/
def computeEig (orc : CentralityOracles) (G : Graph) : Option (Nat → ℚ) :=
  match orc.eigNumpy G with
  | some c => some c
  | none => orc.eigPower G

/-- The initial ordering of `simulate_targeted_attack` (computed once on the
working copy); `none` models an uncaught centrality exception. -/
def initialOrder (orc : CentralityOracles) (key : AttackKey) (G : Graph) :
    Option (List Nat) :=
  match key with
  | AttackKey.degree => some (sortDescBy (fun v => (degreeOf G v : ℚ)) G.nodes)
  | AttackKey.betweenness => some (sortDescBy (orc.betw G) G.nodes)
  | AttackKey.closeness => some (sortDescBy (orc.close G) G.nodes)
  | AttackKey.eigenvector => (computeEig orc G).map (fun c => sortDescBy c G.nodes)

/-- Adaptive recomputation of the ordering after a removal (attack.py lines
143-161): recompute on the remaining graph and drop removed nodes. -/
def adaptiveOrder (orc : CentralityOracles) (key : AttackKey) (G : Graph)
    (removed : Finset Nat) : Option (List Nat) :=
  match key with
  | AttackKey.degree =>
    some ((sortDescBy (fun v => (degreeOf G v : ℚ)) G.nodes).filter
      (fun n => n ∉ removed))
  | AttackKey.betweenness =>
    some ((sortDescBy (orc.betw G) G.nodes).filter (fun n => n ∉ removed))
  | AttackKey.closeness =>
    some ((sortDescBy (orc.close G) G.nodes).filter (fun n => n ∉ removed))
  | AttackKey.eigenvector =>
    (computeEig orc G).map
      (fun c => (sortDescBy c G.nodes).filter (fun n => n ∉ removed))

/-- One record appended per checkpoint by `simulate_targeted_attack`. -/
structure TaRecord where
  metrics : Metrics
  method : String
  adaptive : Bool
  removed_count : ℤ
  removed_frac : ℚ
deriving DecidableEq, Repr

/-- The inner removal loop of `simulate_targeted_attack`
(`while len(removed) < k and len(current_order) > 0`), value-level, with
fuel; `none` is unreachable for the fuel supplied by the checkpoint loop. -/
def taLoopP (orc : CentralityOracles) (key : AttackKey) (adaptive : Bool) :
    Graph → Finset Nat → List Nat → ℤ → Nat →
    Option (PyResult (Graph × Finset Nat × List Nat))
  | G, removed, [], _, _ => some (PyResult.ok (G, removed, []))
  | G, removed, target :: rest, k, 0 =>
    if (removed.card : ℤ) < k then none
    else some (PyResult.ok (G, removed, target :: rest))
  | G, removed, target :: rest, k, Nat.succ fuel =>
    if (removed.card : ℤ) < k then
      if target ∈ G.nodes then
        if adaptive then
          match adaptiveOrder orc key (removeNode G target) (insert target removed) with
          | none => some PyResult.exn
          | some newOrder =>
            taLoopP orc key adaptive (removeNode G target) (insert target removed)
              newOrder k fuel
        else
          taLoopP orc key adaptive (removeNode G target) (insert target removed)
            rest k fuel
      else
        if adaptive then
          match adaptiveOrder orc key G removed with
          | none => some PyResult.exn
          | some newOrder => taLoopP orc key adaptive G removed newOrder k fuel
        else taLoopP orc key adaptive G removed rest k fuel
    else some (PyResult.ok (G, removed, target :: rest))

/-- Checkpoint loop of `simulate_targeted_attack`, value-level. -/
def taCheckpointsP (orc : CentralityOracles) (key : AttackKey) (adaptive : Bool)
    (n : Nat) (G : Graph) (removed : Finset Nat) (order : List Nat) :
    List ℤ → Option (PyResult (Graph × List TaRecord))
  | [] => some (PyResult.ok (G, []))
  | k :: ks =>
    match taLoopP orc key adaptive G removed order k
        (G.nodes.length + order.length + 2) with
    | none => none
    | some PyResult.exn => some PyResult.exn
    | some (PyResult.ok st) =>
      let m := metrics_on_graph st.1
      match taCheckpointsP orc key adaptive n st.1 st.2.1 st.2.2 ks with
      | none => none
      | some PyResult.exn => some PyResult.exn
      | some (PyResult.ok res) =>
        some (PyResult.ok (res.1,
          ⟨m, keyString key, adaptive, k, (k : ℚ) / (n : ℚ)⟩ :: res.2))

/-- `simulate_targeted_attack(G, key, adaptive, steps, max_frac)`
(attack.py), value-level: `some (ok recs)` is a normal return, `some exn` an
uncaught exception (eigenvector non-convergence of the fallback), `none` a
run that never finishes. -/
def simulate_targeted_attack (orc : CentralityOracles) (key : AttackKey)
    (adaptive : Bool) (G : Graph) (steps : Nat) (max_frac : ℚ) :
    Option (PyResult (List TaRecord)) :=
  let n := G.nodes.length
  let cum := removal_sequence_by_fraction G.nodes steps max_frac
  match initialOrder orc key G with
  | none => some PyResult.exn
  | some order0 =>
    match taCheckpointsP orc key adaptive n G ∅ order0 cum with
    | none => none
    | some PyResult.exn => some PyResult.exn
    | some (PyResult.ok res) => some (PyResult.ok res.2)

/-- Inner removal loop of `simulate_targeted_attack` against the store. -/
def taLoopH (orc : CentralityOracles) (key : AttackKey) (adaptive : Bool)
    (h0 : Nat) :
    List Graph → Finset Nat → List Nat → ℤ → Nat →
    Option (List Graph × PyResult (Finset Nat × List Nat))
  | heap, removed, [], _, _ => some (heap, PyResult.ok (removed, []))
  | heap, removed, target :: rest, k, 0 =>
    if (removed.card : ℤ) < k then none
    else some (heap, PyResult.ok (removed, target :: rest))
  | heap, removed, target :: rest, k, Nat.succ fuel =>
    if (removed.card : ℤ) < k then
      if target ∈ (hget heap h0).nodes then
        if adaptive then
          match adaptiveOrder orc key (hget (hremove heap h0 target) h0)
              (insert target removed) with
          | none => some (hremove heap h0 target, PyResult.exn)
          | some newOrder =>
            taLoopH orc key adaptive h0 (hremove heap h0 target)
              (insert target removed) newOrder k fuel
        else
          taLoopH orc key adaptive h0 (hremove heap h0 target)
            (insert target removed) rest k fuel
      else
        if adaptive then
          match adaptiveOrder orc key (hget heap h0) removed with
          | none => some (heap, PyResult.exn)
          | some newOrder => taLoopH orc key adaptive h0 heap removed newOrder k fuel
        else taLoopH orc key adaptive h0 heap removed rest k fuel
    else some (heap, PyResult.ok (removed, target :: rest))

/-- Checkpoint loop of `simulate_targeted_attack` against the store. -/
def taCheckpointsH (orc : CentralityOracles) (key : AttackKey) (adaptive : Bool)
    (n : Nat) (heap : List Graph) (h0 : Nat) (removed : Finset Nat)
    (order : List Nat) : List ℤ → Option (List Graph × PyResult (List TaRecord))
  | [] => some (heap, PyResult.ok [])
  | k :: ks =>
    match taLoopH orc key adaptive h0 heap removed order k
        ((hget heap h0).nodes.length + order.length + 2) with
    | none => none
    | some (heap1, PyResult.exn) => some (heap1, PyResult.exn)
    | some (heap1, PyResult.ok st) =>
      let m := metrics_on_graph (hget heap1 h0)
      match taCheckpointsH orc key adaptive n heap1 h0 st.1 st.2 ks with
      | none => none
      | some (heapF, PyResult.exn) => some (heapF, PyResult.exn)
      | some (heapF, PyResult.ok recs) =>
        some (heapF, PyResult.ok
          (⟨m, keyString key, adaptive, k, (k : ℚ) / (n : ℚ)⟩ :: recs))

/-- `simulate_targeted_attack` against the store: `G_work = G.copy()`
allocates a fresh slot, the ordering is computed on the copy, all removals
hit the copy. -/
def simulate_targeted_attackH (orc : CentralityOracles) (key : AttackKey)
    (adaptive : Bool) (heap : List Graph) (h : Nat) (steps : Nat)
    (max_frac : ℚ) : Option (List Graph × PyResult (List TaRecord)) :=
  let G := hget heap h
  let n := G.nodes.length
  let cum := removal_sequence_by_fraction G.nodes steps max_frac
  let heap1 := heap ++ [G]
  let h0 := heap.length
  match initialOrder orc key (hget heap1 h0) with
  | none => some (heap1, PyResult.exn)
  | some order0 => taCheckpointsH orc key adaptive n heap1 h0 ∅ order0 cum

/-- One record appended per checkpoint and trial by
`simulate_random_attacks`. -/
structure RaRecord where
  metrics : Metrics
  trial : Nat
  removed_count : ℤ
  removed_frac : ℚ
deriving DecidableEq, Repr

/-- Inner removal loop of one random trial
(`while len(removed_set) < k`), against the store. -/
def raLoopH (h0 : Nat) (perm : List Nat) :
    List Graph → Finset Nat → ℤ → Nat → Option (List Graph × Finset Nat)
  | heap, removed, k, 0 =>
    if (removed.card : ℤ) < k then none else some (heap, removed)
  | heap, removed, k, Nat.succ fuel =>
    if (removed.card : ℤ) < k then
      if perm.getD removed.card 0 ∈ (hget heap h0).nodes then
        raLoopH h0 perm (hremove heap h0 (perm.getD removed.card 0))
          (insert (perm.getD removed.card 0) removed) k fuel
      else
        raLoopH h0 perm heap (insert (perm.getD removed.card 0) removed) k fuel
    else some (heap, removed)

/-- Checkpoint loop of one random trial against the store. -/
def raCheckpointsH (t n : Nat) (heap : List Graph) (h0 : Nat)
    (perm : List Nat) (removed : Finset Nat) :
    List ℤ → Option (List Graph × List RaRecord)
  | [] => some (heap, [])
  | k :: ks =>
    match raLoopH h0 perm heap removed k (perm.length + 1) with
    | none => none
    | some (heap1, removed1) =>
      let m := metrics_on_graph (hget heap1 h0)
      match raCheckpointsH t n heap1 h0 perm removed1 ks with
      | none => none
      | some (heapF, recs) =>
        some (heapF, ⟨m, t, k, (k : ℚ) / (n : ℚ)⟩ :: recs)

/-- Trials loop of `simulate_random_attacks`: each trial copies the
caller's object into a fresh slot and shuffles its own permutation. -/
def raTrialsH (stream : Nat → Nat) (nodes : List Nat) (cum : List ℤ) (n : Nat)
    (heap : List Graph) (h : Nat) (t : Nat) :
    Nat → Option (List Graph × List RaRecord)
  | 0 => some (heap, [])
  | Nat.succ remaining =>
    let G := hget heap h
    let heap1 := heap ++ [G]
    let h0 := heap.length
    let perm := shuffleWith stream (t * (nodes.length + 1)) nodes
    match raCheckpointsH t n heap1 h0 perm ∅ cum with
    | none => none
    | some (heap2, recs) =>
      match raTrialsH stream nodes cum n heap2 h (t + 1) remaining with
      | none => none
      | some (heapF, recsF) => some (heapF, recs ++ recsF)

/-- `simulate_random_attacks(G, trials, steps, max_frac)` (attack.py)
against the store. -/
def simulate_random_attacksH (stream : Nat → Nat) (heap : List Graph)
    (h : Nat) (trials steps : Nat) (max_frac : ℚ) :
    Option (List Graph × List RaRecord) :=
  let nodes := (hget heap h).nodes
  let n := nodes.length
  let cum := removal_sequence_by_fraction nodes steps max_frac
  raTrialsH stream nodes cum n heap h 0 trials

/-- A trivial instantiation of the centrality oracles, used where the
scores are irrelevant (the `degree` strategy computes its own scores). -/
def trivOracles : CentralityOracles :=
  ⟨fun _ _ => 0, fun _ _ => 0, fun _ => none, fun _ => none⟩

/-- Oracles describing a run in which the numpy eigenvector routine
converges on graphs with at least three nodes but fails on smaller ones,
and the power-iteration fallback never converges. -/
def failingOracles : CentralityOracles :=
  ⟨fun _ _ => 0, fun _ _ => 0,
   fun G => if 3 ≤ G.nodes.length then some (fun _ => 1) else none,
   fun _ => none⟩

/-- Projection of a targeted-attack outcome to the recorded
giant-component fractions. -/
def lccFracsOf (r : Option (PyResult (List TaRecord))) : Option (List ℚ) :=
  match r with
  | some (PyResult.ok recs) => some (recs.map (fun t => t.metrics.lcc_fraction))
  | _ => none

/-- A store-instrumented call leaves the object at handle `h` unchanged
whenever it returns. -/
def preservesHandle {α : Type} (h : Nat) (old : List Graph)
    (res : Option (List Graph × α)) : Prop :=
  ∀ pr : List Graph × α, res = some pr → hget pr.1 h = hget old h

/-- An eight-node graph: a 4-cycle `1-2-3-4` together with a star with hub
`5` and leaves `6, 7, 8`.  The hub has the unique maximal degree but lies
outside the giant component (the tie between the two four-node components
is broken toward the cycle, which appears first). -/
def cycleStarGraph : Graph :=
  ⟨[1, 2, 3, 4, 5, 6, 7, 8],
   [(1, 2), (2, 3), (3, 4), (4, 1), (5, 6), (5, 7), (5, 8)], []⟩

/-- `cycleStarGraph` after the degree-targeted removal of hub `5`. -/
def cycleStarGraphAfter : Graph :=
  ⟨[1, 2, 3, 4, 6, 7, 8], [(1, 2), (2, 3), (3, 4), (4, 1)], []⟩

/-- A triangle on nodes 1, 2, 3. -/
def triangleGraph : Graph :=
  ⟨[1, 2, 3], [(1, 2), (2, 3), (1, 3)], []⟩

/-- Oracles for a run where the numpy eigenvector routine always raises
and the power-iteration fallback always converges. -/
def noNumpyOracles : CentralityOracles :=
  ⟨fun _ _ => 0, fun _ _ => 0, fun _ => none, fun _ => some (fun _ => 1)⟩

/-! ### Theorems -/

theorem adjb_symm (G : Graph) (u v : Nat) : adjb G u v = adjb G v u := by
  simp [adjb, Bool.or_comm]

theorem subset_stepCl (G : Graph) (s : Finset Nat) : s ⊆ stepCl G s :=
  Finset.subset_union_left

theorem stepCl_subset_union (G : Graph) (s : Finset Nat) :
    stepCl G s ⊆ s ∪ G.nodes.toFinset := by
  intro v hv
  rcases Finset.mem_union.1 hv with h | h
  · exact Finset.mem_union.2 (Or.inl h)
  · exact Finset.mem_union.2 (Or.inr (Finset.mem_of_mem_filter v h))

theorem isSubgraphOf_refl (G : Graph) : IsSubgraphOf G G :=
  ⟨fun _ h => h, fun _ _ h => h, le_refl _⟩

theorem isSubgraphOf_trans {G1 G2 G3 : Graph}
    (h12 : IsSubgraphOf G1 G2) (h23 : IsSubgraphOf G2 G3) : IsSubgraphOf G1 G3 :=
  ⟨fun x hx => h23.1 x (h12.1 x hx),
   fun u v hv => h23.2.1 u v (h12.2.1 u v hv),
   le_trans h12.2.2 h23.2.2⟩

theorem removeNode_isSubgraphOf (G : Graph) (x : Nat) :
    IsSubgraphOf (removeNode G x) G := by
  refine ⟨fun y hy => ?_, fun u v huv => ?_, ?_⟩
  · exact (G.nodes.erase_sublist x).mem hy
  · simp only [adjb, removeNode, Bool.or_eq_true, decide_eq_true_eq] at huv ⊢
    rcases huv with h | h
    · exact Or.inl (List.mem_of_mem_filter h)
    · exact Or.inr (List.mem_of_mem_filter h)
  · exact (G.nodes.erase_sublist x).length_le

theorem stepCl_mono {H G : Graph} {s t : Finset Nat}
    (hG : IsSubgraphOf H G) (hst : s ⊆ t) : stepCl H s ⊆ stepCl G t := by
  intro v hv
  rcases Finset.mem_union.1 hv with h | h
  · exact Finset.mem_union.2 (Or.inl (hst h))
  · rcases Finset.mem_filter.1 h with ⟨hvn, u, hu, hadj⟩
    refine Finset.mem_union.2 (Or.inr (Finset.mem_filter.2 ⟨?_, u, hst hu, ?_⟩))
    · exact List.mem_toFinset.2 (hG.1 v (List.mem_toFinset.1 hvn))
    · exact hG.2.1 u v hadj

theorem iterate_stepCl_mono {H G : Graph} {s t : Finset Nat}
    (hG : IsSubgraphOf H G) (hst : s ⊆ t) (n : Nat) :
    (stepCl H)^[n] s ⊆ (stepCl G)^[n] t := by
  induction n generalizing s t with
  | zero => simpa using hst
  | succ n ih =>
    rw [Function.iterate_succ_apply, Function.iterate_succ_apply]
    exact ih (stepCl_mono hG hst)

theorem iterate_stepCl_le (G : Graph) (s : Finset Nat) {m n : Nat} (hmn : m ≤ n) :
    (stepCl G)^[m] s ⊆ (stepCl G)^[n] s := by
  induction n with
  | zero => simp [Nat.le_zero.1 hmn]
  | succ n ih =>
    rcases Nat.lt_or_ge m (n + 1) with h | h
    · refine (ih (Nat.lt_succ_iff.1 h)).trans ?_
      rw [Function.iterate_succ_apply']
      exact subset_stepCl G _
    · have : m = n + 1 := le_antisymm hmn h
      subst this
      exact Finset.Subset.refl _

theorem compOf_mono {H G : Graph} (hG : IsSubgraphOf H G) (r : Nat) :
    compOf H r ⊆ compOf G r := by
  unfold compOf
  exact (iterate_stepCl_mono hG (Finset.Subset.refl _) H.nodes.length).trans
    (iterate_stepCl_le G _ hG.2.2)

theorem mem_compOf_self (G : Graph) (r : Nat) : r ∈ compOf G r := by
  unfold compOf
  have h := iterate_stepCl_le G ({r} : Finset Nat) (Nat.zero_le G.nodes.length)
  exact h (by simp)

theorem iterate_stepCl_subset_insert (G : Graph) (r : Nat) (n : Nat) :
    (stepCl G)^[n] {r} ⊆ insert r G.nodes.toFinset := by
  induction n with
  | zero => simp
  | succ n ih =>
    rw [Function.iterate_succ_apply']
    refine (stepCl_subset_union G _).trans ?_
    intro v hv
    rcases Finset.mem_union.1 hv with h | h
    · exact ih h
    · exact Finset.mem_insert.2 (Or.inr h)

theorem compOf_subset_insert (G : Graph) (r : Nat) :
    compOf G r ⊆ insert r G.nodes.toFinset :=
  iterate_stepCl_subset_insert G r _

theorem compOf_subset_nodes (G : Graph) {r : Nat} (hr : r ∈ G.nodes) :
    compOf G r ⊆ G.nodes.toFinset := by
  refine (compOf_subset_insert G r).trans ?_
  intro v hv
  rcases Finset.mem_insert.1 hv with h | h
  · subst h; exact List.mem_toFinset.2 hr
  · exact h

/-- The bounded closure iteration reaches a fixpoint: either some step is
already stable, or the set has grown past the stage index. -/
theorem iterate_stepCl_stable_or_card (G : Graph) (r : Nat) (k : Nat) :
    stepCl G ((stepCl G)^[k] {r}) = (stepCl G)^[k] {r} ∨
      k + 1 ≤ ((stepCl G)^[k] {r}).card := by
  induction k with
  | zero => right; simp
  | succ k ih =>
    rcases ih with h | h
    · left
      rw [Function.iterate_succ_apply', h, h]
    · by_cases hfix : stepCl G ((stepCl G)^[k] {r}) = (stepCl G)^[k] {r}
      · left
        rw [Function.iterate_succ_apply', hfix, hfix]
      · right
        rw [Function.iterate_succ_apply']
        have hss : (stepCl G)^[k] {r} ⊂ stepCl G ((stepCl G)^[k] {r}) :=
          Finset.ssubset_iff_subset_ne.2 ⟨subset_stepCl G _, fun he => hfix he.symm⟩
        have := Finset.card_lt_card hss
        omega

theorem stepCl_compOf (G : Graph) (r : Nat) :
    stepCl G (compOf G r) = compOf G r := by
  rcases iterate_stepCl_stable_or_card G r G.nodes.length with h | h
  · exact h
  · have hsub : compOf G r ⊆ insert r G.nodes.toFinset := compOf_subset_insert G r
    have hcard1 : (compOf G r).card ≤ (insert r G.nodes.toFinset).card :=
      Finset.card_le_card hsub
    have hcard2 : (insert r G.nodes.toFinset).card ≤ G.nodes.length + 1 :=
      le_trans (Finset.card_insert_le _ _) (by
        have := G.nodes.toFinset_card_le
        omega)
    have hstep : stepCl G (compOf G r) ⊆ insert r G.nodes.toFinset := by
      refine (stepCl_subset_union G _).trans ?_
      intro v hv
      rcases Finset.mem_union.1 hv with hv | hv
      · exact hsub hv
      · exact Finset.mem_insert.2 (Or.inr hv)
    refine (Finset.eq_of_subset_of_card_le (subset_stepCl G (compOf G r)) ?_).symm
    calc (stepCl G (compOf G r)).card
        ≤ (insert r G.nodes.toFinset).card := Finset.card_le_card hstep
      _ ≤ G.nodes.length + 1 := hcard2
      _ ≤ (compOf G r).card := by
          have hh : G.nodes.length + 1 ≤ (compOf G r).card := h
          omega

/-- The reachable set is closed under adjacency into the node set. -/
theorem compOf_closed (G : Graph) (r : Nat) {u v : Nat}
    (hu : u ∈ compOf G r) (hv : v ∈ G.nodes) (hadj : adjb G u v = true) :
    v ∈ compOf G r := by
  have : v ∈ stepCl G (compOf G r) := by
    refine Finset.mem_union.2 (Or.inr (Finset.mem_filter.2 ⟨List.mem_toFinset.2 hv, u, hu, hadj⟩))
  rwa [stepCl_compOf] at this

/-- Minimality: the reachable set is contained in every adjacency-closed set
containing the root. -/
theorem compOf_subset_closed (G : Graph) (r : Nat) (S : Finset Nat)
    (hr : r ∈ S)
    (hcl : ∀ u ∈ S, ∀ v ∈ G.nodes, adjb G u v = true → v ∈ S) :
    compOf G r ⊆ S := by
  unfold compOf
  have key : ∀ n, (stepCl G)^[n] {r} ⊆ S := by
    intro n
    induction n with
    | zero => simpa using Finset.singleton_subset_iff.2 hr
    | succ n ih =>
      rw [Function.iterate_succ_apply']
      intro v hv
      rcases Finset.mem_union.1 hv with h | h
      · exact ih h
      · rcases Finset.mem_filter.1 h with ⟨hvn, u, hu, hadj⟩
        exact hcl u (ih hu) v (List.mem_toFinset.1 hvn) hadj
  exact key _

theorem compOf_trans (G : Graph) {u v : Nat} (hv : v ∈ compOf G u) :
    compOf G v ⊆ compOf G u :=
  compOf_subset_closed G v (compOf G u) hv
    (fun _ ha _ hb hadj => compOf_closed G u ha hb hadj)

theorem compOf_symm (G : Graph) {u v : Nat} (hu : u ∈ G.nodes)
    (hv : v ∈ compOf G u) : u ∈ compOf G v := by
  classical
  have hsub : compOf G u ⊆ G.nodes.toFinset.filter (fun x => u ∈ compOf G x) := by
    refine compOf_subset_closed G u _ ?_ ?_
    · exact Finset.mem_filter.2 ⟨List.mem_toFinset.2 hu, mem_compOf_self G u⟩
    · intro x hx y hy hadj
      rcases Finset.mem_filter.1 hx with ⟨hxn, hux⟩
      refine Finset.mem_filter.2 ⟨List.mem_toFinset.2 hy, ?_⟩
      have hxy : x ∈ compOf G y := by
        refine compOf_closed G y (mem_compOf_self G y) (List.mem_toFinset.1 hxn) ?_
        rw [adjb_symm]
        exact hadj
      exact (compOf_trans G hxy) hux
  exact (Finset.mem_filter.1 (hsub hv)).2

theorem compOf_eq_of_mem (G : Graph) {u v : Nat} (hu : u ∈ G.nodes)
    (hv : v ∈ compOf G u) : compOf G u = compOf G v := by
  have hvn : v ∈ G.nodes := List.mem_toFinset.1 (compOf_subset_nodes G hu hv)
  exact le_antisymm (compOf_trans G (compOf_symm G hu hv)) (compOf_trans G hv)

theorem foldl_maxByLen_mem (cs : List (Finset Nat)) (c : Finset Nat) :
    cs.foldl (fun best x => if best.card < x.card then x else best) c ∈ c :: cs := by
  induction cs generalizing c with
  | nil => simp
  | cons d ds ih =>
    simp only [List.foldl_cons]
    by_cases h : c.card < d.card
    · simp only [if_pos h]
      have := ih d
      simp only [List.mem_cons] at this ⊢
      tauto
    · simp only [if_neg h]
      have := ih c
      simp only [List.mem_cons] at this ⊢
      tauto

theorem foldl_maxByLen_ge (cs : List (Finset Nat)) (c : Finset Nat) :
    c.card ≤ (cs.foldl (fun best x => if best.card < x.card then x else best) c).card ∧
    ∀ x ∈ cs, x.card ≤ (cs.foldl (fun best x => if best.card < x.card then x else best) c).card := by
  induction cs generalizing c with
  | nil => simp
  | cons d ds ih =>
    simp only [List.foldl_cons]
    by_cases h : c.card < d.card
    · simp only [if_pos h]
      rcases ih d with ⟨h1, h2⟩
      refine ⟨le_trans (le_of_lt h) h1, ?_⟩
      intro x hx
      rcases List.mem_cons.1 hx with rfl | hx
      · exact h1
      · exact h2 x hx
    · simp only [if_neg h]
      rcases ih c with ⟨h1, h2⟩
      refine ⟨h1, ?_⟩
      intro x hx
      rcases List.mem_cons.1 hx with rfl | hx
      · exact le_trans (Nat.le_of_not_lt h) h1
      · exact h2 x hx

theorem compsRec_roots (G : Graph) (l : List Nat) (seen : Finset Nat) :
    ∀ C ∈ compsRec G l seen, ∃ v ∈ l, C = compOf G v := by
  induction l generalizing seen with
  | nil => simp [compsRec]
  | cons v vs ih =>
    intro C hC
    simp only [compsRec] at hC
    by_cases h : v ∈ seen
    · rw [if_pos h] at hC
      rcases ih seen C hC with ⟨w, hw, rfl⟩
      exact ⟨w, List.mem_cons_of_mem v hw, rfl⟩
    · rw [if_neg h] at hC
      rcases List.mem_cons.1 hC with rfl | hC
      · exact ⟨v, List.mem_cons_self v vs, rfl⟩
      · rcases ih _ C hC with ⟨w, hw, rfl⟩
        exact ⟨w, List.mem_cons_of_mem v hw, rfl⟩

theorem compsRec_cover (G : Graph) (l : List Nat) (seen : Finset Nat) :
    ∀ v ∈ l, v ∉ seen → ∃ C ∈ compsRec G l seen, v ∈ C := by
  induction l generalizing seen with
  | nil => simp
  | cons u vs ih =>
    intro v hv hvseen
    simp only [compsRec]
    by_cases h : u ∈ seen
    · rw [if_pos h]
      rcases List.mem_cons.1 hv with rfl | hv
      · exact absurd h hvseen
      · exact ih seen v hv hvseen
    · rw [if_neg h]
      rcases List.mem_cons.1 hv with rfl | hv
      · exact ⟨compOf G v, List.mem_cons_self _ _, mem_compOf_self G v⟩
      · by_cases hvc : v ∈ compOf G u
        · exact ⟨compOf G u, List.mem_cons_self _ _, hvc⟩
        · rcases ih (seen ∪ compOf G u) v hv (by
            intro hmem
            rcases Finset.mem_union.1 hmem with hmem | hmem
            · exact hvseen hmem
            · exact hvc hmem) with ⟨C, hC, hvC⟩
          exact ⟨C, List.mem_cons_of_mem _ hC, hvC⟩

theorem connected_components_eq_nil_iff (G : Graph) :
    connected_components G = [] ↔ G.nodes = [] := by
  unfold connected_components
  constructor
  · intro h
    cases hn : G.nodes with
    | nil => rfl
    | cons v vs =>
      rw [hn] at h
      simp only [compsRec] at h
      rw [if_neg (Finset.not_mem_empty v)] at h
      exact absurd h (List.cons_ne_nil _ _)
  · intro h
    rw [h]
    rfl

theorem card_le_lcc_size_of_mem_components (G : Graph) {C : Finset Nat}
    (hC : C ∈ connected_components G) : C.card ≤ lcc_size G := by
  unfold lcc_size
  cases hcc : connected_components G with
  | nil => rw [hcc] at hC; exact absurd hC (List.not_mem_nil C)
  | cons c cs =>
    rw [hcc] at hC
    simp only [maxByLen]
    rcases List.mem_cons.1 hC with rfl | hC
    · exact (foldl_maxByLen_ge cs C).1
    · exact (foldl_maxByLen_ge cs c).2 C hC

theorem card_compOf_le_lcc_size (G : Graph) {v : Nat} (hv : v ∈ G.nodes) :
    (compOf G v).card ≤ lcc_size G := by
  rcases compsRec_cover G G.nodes ∅ v hv (Finset.not_mem_empty v) with ⟨C, hC, hvC⟩
  rcases compsRec_roots G G.nodes ∅ C hC with ⟨w, hw, rfl⟩
  rw [← compOf_eq_of_mem G hw hvC]
  exact card_le_lcc_size_of_mem_components G hC

theorem lcc_size_mono {H G : Graph} (hHG : IsSubgraphOf H G) :
    lcc_size H ≤ lcc_size G := by
  cases hcc : connected_components H with
  | nil =>
    unfold lcc_size
    rw [hcc]
    simp [maxByLen]
  | cons c cs =>
    have hmem : (maxByLen (connected_components H)).getD ∅ ∈ connected_components H := by
      rw [hcc]
      simp only [maxByLen, Option.getD_some]
      exact foldl_maxByLen_mem cs c
    rcases compsRec_roots H H.nodes ∅ _ hmem with ⟨w, hw, hweq⟩
    have h1 : lcc_size H = ((maxByLen (connected_components H)).getD ∅).card := by
      unfold lcc_size
      rw [hcc]
      simp [maxByLen]
    rw [h1, hweq]
    refine le_trans (Finset.card_le_card (compOf_mono hHG w)) ?_
    exact card_compOf_le_lcc_size G (hHG.1 w hw)

theorem mem_inducedSubgraph_nodes (G : Graph) (S : Finset Nat) (v : Nat) :
    v ∈ (inducedSubgraph G S).nodes ↔ v ∈ G.nodes ∧ v ∈ S := by
  simp [inducedSubgraph]

theorem adjb_inducedSubgraph (G : Graph) (S : Finset Nat) (u v : Nat) :
    adjb (inducedSubgraph G S) u v = true ↔
      adjb G u v = true ∧ u ∈ S ∧ v ∈ S := by
  simp only [adjb, inducedSubgraph, Bool.or_eq_true, decide_eq_true_eq, List.mem_filter]
  constructor
  · rintro (⟨h, hm⟩ | ⟨h, hm⟩) <;>
      simp only [Bool.and_eq_true, decide_eq_true_eq] at hm
    · exact ⟨Or.inl h, hm.1, hm.2⟩
    · exact ⟨Or.inr h, hm.2, hm.1⟩
  · rintro ⟨h | h, hu, hv⟩
    · exact Or.inl ⟨h, by simp [hu, hv]⟩
    · exact Or.inr ⟨h, by simp [hu, hv]⟩

/-- Reachability transfers from `G` into the subgraph induced on an
adjacency-closed set. -/
theorem compOf_subset_inducedSubgraph (G : Graph) (C : Finset Nat)
    (hclosed : ∀ x ∈ C, ∀ y ∈ G.nodes, adjb G x y = true → y ∈ C)
    {u : Nat} (hu : u ∈ C) :
    compOf G u ⊆ compOf (inducedSubgraph G C) u := by
  have key : compOf G u ⊆
      (insert u (inducedSubgraph G C).nodes.toFinset).filter
        (fun x => x ∈ compOf (inducedSubgraph G C) u) := by
    refine compOf_subset_closed G u _ ?_ ?_
    · exact Finset.mem_filter.2 ⟨Finset.mem_insert_self u _, mem_compOf_self _ u⟩
    · intro x hx y hy hadj
      rcases Finset.mem_filter.1 hx with ⟨hxi, hxc⟩
      have hxC : x ∈ C := by
        rcases Finset.mem_insert.1 hxi with rfl | hxi
        · exact hu
        · exact ((mem_inducedSubgraph_nodes G C x).1 (List.mem_toFinset.1 hxi)).2
      have hyC : y ∈ C := hclosed x hxC y hy hadj
      have hyInd : y ∈ (inducedSubgraph G C).nodes :=
        (mem_inducedSubgraph_nodes G C y).2 ⟨hy, hyC⟩
      refine Finset.mem_filter.2 ⟨Finset.mem_insert.2 (Or.inr (List.mem_toFinset.2 hyInd)), ?_⟩
      exact compOf_closed _ u hxc hyInd
        ((adjb_inducedSubgraph G C x y).2 ⟨hadj, hxC, hyC⟩)
  intro v hv
  exact (Finset.mem_filter.1 (key hv)).2

/-- The induced subgraph on any reachable set `compOf G w` (with `w` a node)
is connected. -/
theorem connected_inducedSubgraph_compOf (G : Graph) {w : Nat} (hw : w ∈ G.nodes) :
    ConnectedGraph (inducedSubgraph G (compOf G w)) := by
  intro u hu v hv
  rcases (mem_inducedSubgraph_nodes G _ u).1 hu with ⟨hun, huC⟩
  rcases (mem_inducedSubgraph_nodes G _ v).1 hv with ⟨hvn, hvC⟩
  have hvu : v ∈ compOf G u := by
    rw [← compOf_eq_of_mem G hw huC]
    exact hvC
  exact compOf_subset_inducedSubgraph G (compOf G w)
    (fun x hx y hy hadj => compOf_closed G w hx hy hadj) huC hvu

theorem distB_pos (G : Graph) {u v : Nat} {d : Nat}
    (h : distB G u v = some d) (huv : u ≠ v) : 0 < d := by
  have hp := List.find?_some h
  rcases Nat.eq_zero_or_pos d with rfl | hd
  · simp only [Function.iterate_zero, id_eq, decide_eq_true_eq, Finset.mem_singleton] at hp
    exact absurd hp.symm huv
  · exact hd

theorem shuffleGo_perm (stream : Nat → Nat) (fuel k : Nat) (l : List Nat) :
    (shuffleGo stream k fuel l).Perm l := by
  induction fuel generalizing k l with
  | zero => exact List.Perm.refl l
  | succ fuel ih =>
    rw [shuffleGo]
    split
    · exact List.Perm.refl l
    · rename_i x b h
      have hperm := ih (k + 1) (l.take (stream k % l.length) ++ b)
      have step1 : (x :: shuffleGo stream (k + 1) fuel
          (l.take (stream k % l.length) ++ b)).Perm
          (x :: (l.take (stream k % l.length) ++ b)) := List.Perm.cons x hperm
      have step2 : (x :: (l.take (stream k % l.length) ++ b)).Perm
          (l.take (stream k % l.length) ++ x :: b) := (List.perm_middle).symm
      have step3 : l.take (stream k % l.length) ++ x :: b = l := by
        rw [← h, List.take_append_drop]
      rw [step3] at step2
      exact step1.trans step2

theorem shuffleWith_perm (stream : Nat → Nat) (k : Nat) (l : List Nat) :
    (shuffleWith stream k l).Perm l :=
  shuffleGo_perm stream l.length k l

/-! ### The removal schedule (claim C7) -/

theorem pyRound_intCast (q : ℤ) : pyRound (q : ℚ) = q := by
  unfold pyRound
  rw [Int.floor_intCast]
  norm_num

theorem pyRound_nonneg {x : ℚ} (hx : 0 ≤ x) : 0 ≤ pyRound x := by
  have hf : (0 : ℤ) ≤ ⌊x⌋ := Int.floor_nonneg.2 hx
  unfold pyRound
  split_ifs <;> omega

theorem pyRound_le_int {x : ℚ} {m : ℤ} (hx : x ≤ (m : ℚ)) : pyRound x ≤ m := by
  have hfm : ⌊x⌋ ≤ m := by
    have h := Int.floor_le_floor hx
    rwa [Int.floor_intCast] at h
  have hstrict : ¬ (x - (⌊x⌋ : ℚ) < 1/2) → ⌊x⌋ + 1 ≤ m := by
    intro h
    have h05 : (1 : ℚ)/2 ≤ x - (⌊x⌋ : ℚ) := not_lt.1 h
    have hflt : (⌊x⌋ : ℚ) < (m : ℚ) := by linarith
    have : ⌊x⌋ < m := by exact_mod_cast hflt
    omega
  unfold pyRound
  split_ifs with h1 h2 h3
  · exact hfm
  · exact hstrict h1
  · exact hfm
  · exact hstrict h1

theorem mem_pyDedupGo (l : List ℤ) :
    ∀ (seen : List ℤ) (y : ℤ), y ∈ pyDedupGo seen l ↔ y ∈ l ∧ y ∉ seen := by
  induction l with
  | nil => simp [pyDedupGo]
  | cons x xs ih =>
    intro seen y
    simp only [pyDedupGo]
    by_cases hx : x ∈ seen
    · rw [if_pos hx, ih]
      constructor
      · rintro ⟨h1, h2⟩
        exact ⟨List.mem_cons_of_mem x h1, h2⟩
      · rintro ⟨h1, h2⟩
        rcases List.mem_cons.1 h1 with rfl | h1
        · exact absurd hx h2
        · exact ⟨h1, h2⟩
    · rw [if_neg hx]
      constructor
      · intro hmem
        rcases List.mem_cons.1 hmem with rfl | hmem
        · exact ⟨List.mem_cons_self y xs, hx⟩
        · rw [ih] at hmem
          refine ⟨List.mem_cons_of_mem x hmem.1, fun hc => hmem.2 (List.mem_cons_of_mem x hc)⟩
      · rintro ⟨h1, h2⟩
        rcases List.mem_cons.1 h1 with rfl | h1
        · exact List.mem_cons_self y _
        · by_cases hyx : y = x
          · subst hyx
            exact List.mem_cons_self y _
          · refine List.mem_cons_of_mem x ((ih (x :: seen) y).2 ⟨h1, ?_⟩)
            intro hc
            rcases List.mem_cons.1 hc with h | h
            · exact hyx h
            · exact h2 h

theorem nodup_pyDedupGo (l : List ℤ) : ∀ seen : List ℤ, (pyDedupGo seen l).Nodup := by
  induction l with
  | nil => simp [pyDedupGo]
  | cons x xs ih =>
    intro seen
    simp only [pyDedupGo]
    split_ifs with hx
    · exact ih seen
    · refine List.nodup_cons.2 ⟨?_, ih (x :: seen)⟩
      intro hmem
      rw [mem_pyDedupGo] at hmem
      exact hmem.2 (List.mem_cons_self x seen)

theorem mem_pyDedup (l : List ℤ) (y : ℤ) : y ∈ pyDedup l ↔ y ∈ l := by
  unfold pyDedup
  rw [mem_pyDedupGo]
  simp

theorem nodup_pyDedup (l : List ℤ) : (pyDedup l).Nodup :=
  nodup_pyDedupGo l []

theorem pairwise_lt_of_sorted_nodup {l : List ℤ} (hs : List.Sorted (· ≤ ·) l)
    (hn : l.Nodup) : List.Pairwise (· < ·) l := by
  induction l with
  | nil => exact List.Pairwise.nil
  | cons a t ih =>
    rw [List.pairwise_cons]
    refine ⟨fun b hb => ?_, ih hs.of_cons (List.nodup_cons.1 hn).2⟩
    have h1 : a ≤ b := List.rel_of_sorted_cons hs b hb
    have h2 : a ≠ b := fun he => (List.nodup_cons.1 hn).1 (he ▸ hb)
    omega

theorem sorted_head_eq_min {l : List ℤ} (hs : List.Sorted (· ≤ ·) l) {m : ℤ}
    (hm : m ∈ l) (hlb : ∀ y ∈ l, m ≤ y) : l.head? = some m := by
  cases l with
  | nil => exact absurd hm (List.not_mem_nil m)
  | cons a t =>
    simp only [List.head?_cons, Option.some.injEq]
    rcases List.mem_cons.1 hm with rfl | hm
    · rfl
    · have h1 : a ≤ m := List.rel_of_sorted_cons hs m hm
      have h2 : m ≤ a := hlb a (List.mem_cons_self a t)
      omega

theorem sorted_getLast_eq_max : ∀ {l : List ℤ}, List.Sorted (· ≤ ·) l → ∀ {m : ℤ},
    m ∈ l → (∀ y ∈ l, y ≤ m) → l.getLast? = some m := by
  intro l
  induction l with
  | nil =>
    intro _ m hm _
    exact absurd hm (List.not_mem_nil m)
  | cons a t ih =>
    intro hs m hm hub
    cases t with
    | nil =>
      rcases List.mem_cons.1 hm with rfl | hm
      · rfl
      · exact absurd hm (List.not_mem_nil m)
    | cons b t2 =>
      rw [List.getLast?_cons_cons]
      refine ih hs.of_cons ?_ (fun y hy => hub y (List.mem_cons_of_mem a hy))
      rcases List.mem_cons.1 hm with rfl | hm
      · have h1 : m ≤ b := List.rel_of_sorted_cons hs b (List.mem_cons_self b t2)
        have h2 : b ≤ m := hub b (List.mem_cons_of_mem m (List.mem_cons_self b t2))
        have : b = m := le_antisymm h2 h1
        rw [← this]
        exact List.mem_cons_self b t2
      · exact hm

/-- C7: for every node list, `steps ≥ 1` and `max_frac ∈ [0,1]`,
`removal_sequence_by_fraction` returns a strictly increasing list of
integers whose first element is 0 and whose last element is
`floor(n * max_frac)`. -/
theorem removal_sequence_by_fraction_spec (nodes_list : List Nat) (steps : Nat)
    (max_frac : ℚ) (hsteps : 1 ≤ steps) (hf0 : 0 ≤ max_frac) (_hf1 : max_frac ≤ 1) :
    List.Pairwise (· < ·) (removal_sequence_by_fraction nodes_list steps max_frac) ∧
    (removal_sequence_by_fraction nodes_list steps max_frac).head? = some 0 ∧
    (removal_sequence_by_fraction nodes_list steps max_frac).getLast? =
      some ⌊(nodes_list.length : ℚ) * max_frac⌋ := by
  set n := nodes_list.length with hn
  set mr : ℤ := ⌊(n : ℚ) * max_frac⌋ with hmr
  set cum : List ℤ := (List.range (steps + 1)).map
    (fun i : Nat => pyRound ((i : ℚ) * (mr : ℚ) / (steps : ℚ))) with hcum
  have hres : removal_sequence_by_fraction nodes_list steps max_frac =
      List.insertionSort (fun a b => a ≤ b) (pyDedup cum) := rfl
  set res := List.insertionSort (fun a b => a ≤ b) (pyDedup cum) with hresdef
  have hperm : res.Perm (pyDedup cum) := List.perm_insertionSort _ _
  have hsorted : List.Sorted (fun a b => a ≤ b) res :=
    List.sorted_insertionSort _ _
  have hnodup : res.Nodup := (hperm.nodup_iff).2 (nodup_pyDedup cum)
  have hmemres : ∀ y : ℤ, y ∈ res ↔ y ∈ cum := by
    intro y
    rw [hperm.mem_iff, mem_pyDedup]
  have hmr0 : (0 : ℤ) ≤ mr := by
    rw [hmr]
    exact Int.floor_nonneg.2 (mul_nonneg (by positivity) hf0)
  have hsteps0 : (0 : ℚ) < (steps : ℚ) := by
    exact_mod_cast Nat.lt_of_lt_of_le Nat.zero_lt_one hsteps
  have hzero_mem : (0 : ℤ) ∈ cum := by
    rw [hcum]
    refine List.mem_map.2 ⟨0, List.mem_range.2 (Nat.succ_pos steps), ?_⟩
    have : ((0 : Nat) : ℚ) * (mr : ℚ) / (steps : ℚ) = ((0 : ℤ) : ℚ) := by norm_num
    rw [this, pyRound_intCast]
  have hnonneg : ∀ y ∈ cum, (0 : ℤ) ≤ y := by
    intro y hy
    rw [hcum] at hy
    rcases List.mem_map.1 hy with ⟨i, _, rfl⟩
    refine pyRound_nonneg ?_
    have hmr0q : (0 : ℚ) ≤ (mr : ℚ) := by exact_mod_cast hmr0
    positivity
  have hmr_mem : mr ∈ cum := by
    rw [hcum]
    refine List.mem_map.2 ⟨steps, List.mem_range.2 (Nat.lt_succ_self steps), ?_⟩
    have hne : (steps : ℚ) ≠ 0 := ne_of_gt hsteps0
    have : ((steps : Nat) : ℚ) * (mr : ℚ) / (steps : ℚ) = ((mr : ℤ) : ℚ) := by
      field_simp
    rw [this, pyRound_intCast]
  have hub : ∀ y ∈ cum, y ≤ mr := by
    intro y hy
    rw [hcum] at hy
    rcases List.mem_map.1 hy with ⟨i, hi, rfl⟩
    refine pyRound_le_int ?_
    have hile : (i : ℚ) ≤ (steps : ℚ) := by
      exact_mod_cast Nat.lt_succ_iff.1 (List.mem_range.1 hi)
    have hmr0q : (0 : ℚ) ≤ (mr : ℚ) := by exact_mod_cast hmr0
    rw [div_le_iff₀ hsteps0]
    calc (i : ℚ) * (mr : ℚ) ≤ (steps : ℚ) * (mr : ℚ) :=
          mul_le_mul_of_nonneg_right hile hmr0q
      _ = (mr : ℚ) * (steps : ℚ) := mul_comm _ _
  rw [hres]
  refine ⟨pairwise_lt_of_sorted_nodup hsorted hnodup, ?_, ?_⟩
  · exact sorted_head_eq_min hsorted ((hmemres 0).2 hzero_mem)
      (fun y hy => hnonneg y ((hmemres y).1 hy))
  · exact sorted_getLast_eq_max hsorted ((hmemres mr).2 hmr_mem)
      (fun y hy => hub y ((hmemres y).1 hy))

/-- Witness for C7 at a concrete input: ten nodes, three steps, removal of
half the nodes gives the schedule `[0, 2, 3, 5]`. -/
theorem removal_sequence_by_fraction_spec_witness :
    removal_sequence_by_fraction [0, 1, 2, 3, 4, 5, 6, 7, 8, 9] 3 (1/2) =
      [0, 2, 3, 5] ∧
    (List.Pairwise (· < ·) (removal_sequence_by_fraction
        [0, 1, 2, 3, 4, 5, 6, 7, 8, 9] 3 (1/2)) ∧
      (removal_sequence_by_fraction [0, 1, 2, 3, 4, 5, 6, 7, 8, 9] 3
        (1/2)).head? = some 0 ∧
      (removal_sequence_by_fraction [0, 1, 2, 3, 4, 5, 6, 7, 8, 9] 3
        (1/2)).getLast? =
        some ⌊(([0, 1, 2, 3, 4, 5, 6, 7, 8, 9] : List Nat).length : ℚ) * (1/2)⌋) :=
  ⟨by norm_num [removal_sequence_by_fraction, pyDedup, pyDedupGo, pyRound,
      List.insertionSort, List.orderedInsert, Int.floor_eq_iff],
   removal_sequence_by_fraction_spec [0, 1, 2, 3, 4, 5, 6, 7, 8, 9] 3 (1/2)
     (by norm_num) (by norm_num) (by norm_num)⟩

/-! ### The random attack order (claim C8) -/

/-- C8: the random attack order is a permutation of the node list — it has
exactly `|V(G)|` entries and every node appears exactly once (all entries
distinct when the stored node identifiers are distinct) — and it is
reproducible: the output is a function of the graph and the seed alone. -/
theorem nodes_order_random_spec (G : Graph) (seed : Nat) :
    (nodes_order_random G seed).Perm G.nodes ∧
    (nodes_order_random G seed).length = G.nodes.length ∧
    (G.nodes.Nodup → (nodes_order_random G seed).Nodup) ∧
    (∀ seed2 : Nat, seed2 = seed →
      nodes_order_random G seed2 = nodes_order_random G seed) := by
  have hp := shuffleWith_perm (npStream seed) 0 G.nodes
  exact ⟨hp, hp.length_eq, fun hn => hp.nodup_iff.2 hn, fun s2 hs => by rw [hs]⟩

/-- Witness for C8 at a concrete graph and seed. -/
theorem nodes_order_random_spec_witness :
    (nodes_order_random ⟨[3, 1, 2], [], []⟩ 42).Perm [3, 1, 2] ∧
    (nodes_order_random ⟨[3, 1, 2], [], []⟩ 42).Nodup :=
  ⟨(nodes_order_random_spec ⟨[3, 1, 2], [], []⟩ 42).1,
   (nodes_order_random_spec ⟨[3, 1, 2], [], []⟩ 42).2.2.1 (by decide)⟩

/-! ### Totality of the metric computation (claim C10) -/

/-- C10: `metrics_on_graph` is total — it returns a full record (the
`Metrics` structure carries all eight keys) for every graph, raising no
exception (the fallible path-length and efficiency computations are caught
inside it) — and on the zero-node graph it reports `n_components = 0`,
`lcc_size = 0`, together with the other early-return constants. -/
theorem metrics_on_graph_total (G : Graph) :
    (metrics_on_graph G).n_nodes = G.nodes.length ∧
    (metrics_on_graph G).n_edges = G.edges.length ∧
    (G.nodes.length = 0 →
      metrics_on_graph G =
        ⟨0, G.edges.length, 0, 0, none, none, 0, 0⟩) := by
  unfold metrics_on_graph
  by_cases h : G.nodes.length = 0
  · rw [if_pos h]
    exact ⟨h.symm, rfl, fun _ => rfl⟩
  · rw [if_neg h]
    exact ⟨rfl, rfl, fun hc => absurd hc h⟩

/-- Witness for C10: the zero-node graph produces exactly the early-return
record. -/
theorem metrics_on_graph_total_witness :
    metrics_on_graph emptyGraph =
      ⟨0, emptyGraph.edges.length, 0, 0, none, none, 0, 0⟩ :=
  (metrics_on_graph_total emptyGraph).2.2 rfl

/-! ### The giant component (claim C4) -/

/-- C4: on a non-empty graph, `get_giant_component` returns the induced
subgraph on one connected component whose node count is at least that of
every other component, and that subgraph is connected; on the zero-node
graph the underlying `max` raises (`none`) instead of returning a
subgraph. -/
theorem get_giant_component_spec (G : Graph) :
    (G.nodes ≠ [] →
      ∃ C ∈ connected_components G,
        get_giant_component G = some (inducedSubgraph G C) ∧
        ConnectedGraph (inducedSubgraph G C) ∧
        ∀ D ∈ connected_components G, D.card ≤ C.card) ∧
    (G.nodes = [] → get_giant_component G = none) := by
  constructor
  · intro hne
    cases hcc : connected_components G with
    | nil => exact absurd ((connected_components_eq_nil_iff G).1 hcc) hne
    | cons c cs =>
      set C := cs.foldl (fun best x => if best.card < x.card then x else best) c with hC
      have hmemc : C ∈ c :: cs := foldl_maxByLen_mem cs c
      have hmem : C ∈ connected_components G := by
        rw [hcc]
        exact hmemc
      have hmax : maxByLen (connected_components G) = some C := by
        rw [hcc]
        rfl
      rcases compsRec_roots G G.nodes ∅ C hmem with ⟨w, hw, hweq⟩
      refine ⟨C, hmemc, ?_, ?_, ?_⟩
      · unfold get_giant_component
        rw [hmax]
        rfl
      · rw [hweq]
        exact connected_inducedSubgraph_compOf G hw
      · intro D hD
        rcases List.mem_cons.1 hD with rfl | hD
        · exact (foldl_maxByLen_ge cs D).1
        · exact (foldl_maxByLen_ge cs c).2 D hD
  · intro he
    unfold get_giant_component
    rw [(connected_components_eq_nil_iff G).2 he]
    rfl

/-- Witness for C4: a path `1 - 2` plus the isolated node `3`; the giant
component is the edge, and the zero-node side fires on the empty graph. -/
theorem get_giant_component_spec_witness :
    get_giant_component ⟨[1, 2, 3], [(1, 2)], []⟩ =
      some ⟨[1, 2], [(1, 2)], []⟩ ∧
    (∃ C ∈ connected_components ⟨[1, 2, 3], [(1, 2)], []⟩,
      get_giant_component ⟨[1, 2, 3], [(1, 2)], []⟩ =
        some (inducedSubgraph ⟨[1, 2, 3], [(1, 2)], []⟩ C) ∧
      ConnectedGraph (inducedSubgraph ⟨[1, 2, 3], [(1, 2)], []⟩ C) ∧
      ∀ D ∈ connected_components ⟨[1, 2, 3], [(1, 2)], []⟩, D.card ≤ C.card) ∧
    get_giant_component emptyGraph = none :=
  ⟨by decide,
   (get_giant_component_spec ⟨[1, 2, 3], [(1, 2)], []⟩).1 (by decide),
   (get_giant_component_spec emptyGraph).2 rfl⟩

/-! ### Pair sampling (claims C5 and C9) -/

theorem getD_mod_mem {nodes : List Nat} (hn : nodes.length ≠ 0) (i : Nat) :
    nodes.getD (i % nodes.length) 0 ∈ nodes := by
  have hlt : i % nodes.length < nodes.length :=
    Nat.mod_lt i (Nat.pos_of_ne_zero hn)
  rw [List.getD_eq_getElem nodes 0 hlt]
  exact List.getElem_mem hlt

theorem sample_pairsLoop_ok (nodes : List Nat) (m : Nat) (stream : Nat → Nat) :
    ∀ (fuel step : Nat) (pairs P : Finset (Nat × Nat)),
      sample_pairsLoop nodes m stream step fuel pairs = some (PyResult.ok P) →
      pairs.card ≤ m →
      (∀ p ∈ pairs, p.1 < p.2 ∧ p.1 ∈ nodes ∧ p.2 ∈ nodes) →
      P.card = m ∧ (∀ p ∈ P, p.1 < p.2 ∧ p.1 ∈ nodes ∧ p.2 ∈ nodes) := by
  intro fuel
  induction fuel with
  | zero =>
    intro step pairs P h hle hinv
    unfold sample_pairsLoop at h
    by_cases hm : m ≤ pairs.card
    · rw [if_pos hm] at h
      have hP : pairs = P := by
        have := Option.some.inj h
        exact PyResult.ok.inj this
      subst hP
      exact ⟨le_antisymm hle hm, hinv⟩
    · rw [if_neg hm] at h
      by_cases hn : nodes.length = 0
      · rw [if_pos hn] at h
        exact absurd (Option.some.inj h) (by intro hc; cases hc)
      · rw [if_neg hn] at h
        exact absurd h (by intro hc; cases hc)
  | succ fuel ih =>
    intro step pairs P h hle hinv
    unfold sample_pairsLoop at h
    by_cases hm : m ≤ pairs.card
    · rw [if_pos hm] at h
      have hP : pairs = P := by
        have := Option.some.inj h
        exact PyResult.ok.inj this
      subst hP
      exact ⟨le_antisymm hle hm, hinv⟩
    · rw [if_neg hm] at h
      by_cases hn : nodes.length = 0
      · rw [if_pos hn] at h
        exact absurd (Option.some.inj h) (by intro hc; cases hc)
      · rw [if_neg hn] at h
        set u := nodes.getD (stream step % nodes.length) 0 with hu
        set v := nodes.getD (stream (step + 1) % nodes.length) 0 with hv
        by_cases huv : u ≠ v
        · rw [if_pos huv] at h
          refine ih (step + 2) _ P h ?_ ?_
          · have : pairs.card < m := Nat.lt_of_not_le hm
            calc (insert (if v < u then (v, u) else (u, v)) pairs).card
                ≤ pairs.card + 1 := Finset.card_insert_le _ _
              _ ≤ m := this
          · intro p hp
            rcases Finset.mem_insert.1 hp with rfl | hp
            · by_cases hvu : v < u
              · rw [if_pos hvu]
                exact ⟨hvu, getD_mod_mem hn _, getD_mod_mem hn _⟩
              · rw [if_neg hvu]
                have : u < v := lt_of_le_of_ne (Nat.le_of_not_lt hvu) huv
                exact ⟨this, getD_mod_mem hn _, getD_mod_mem hn _⟩
            · exact hinv p hp
        · rw [if_neg huv] at h
          exact ih (step + 2) pairs P h hle hinv

theorem pairs_card_bound (nodes : List Nat) (P : Finset (Nat × Nat))
    (hinv : ∀ p ∈ P, p.1 < p.2 ∧ p.1 ∈ nodes ∧ p.2 ∈ nodes) :
    2 * P.card ≤ nodes.length * (nodes.length - 1) := by
  classical
  set T := nodes.toFinset with hT
  have hsub : P ⊆ T.offDiag := by
    intro p hp
    rcases hinv p hp with ⟨hlt, h1, h2⟩
    rw [Finset.mem_offDiag]
    exact ⟨List.mem_toFinset.2 h1, List.mem_toFinset.2 h2, Nat.ne_of_lt hlt⟩
  have hsub2 : P.image Prod.swap ⊆ T.offDiag := by
    intro p hp
    rcases Finset.mem_image.1 hp with ⟨q, hq, rfl⟩
    rcases hinv q hq with ⟨hlt, h1, h2⟩
    rw [Finset.mem_offDiag]
    exact ⟨List.mem_toFinset.2 h2, List.mem_toFinset.2 h1, (Nat.ne_of_lt hlt).symm⟩
  have hdisj : Disjoint P (P.image Prod.swap) := by
    rw [Finset.disjoint_left]
    intro p hp hps
    rcases Finset.mem_image.1 hps with ⟨q, hq, hpq⟩
    rcases hinv p hp with ⟨hlt, _, _⟩
    rcases hinv q hq with ⟨hlt2, _, _⟩
    rw [← hpq] at hlt
    simp only [Prod.fst_swap, Prod.snd_swap] at hlt
    omega
  have hcardim : (P.image Prod.swap).card = P.card :=
    Finset.card_image_of_injective P Prod.swap_injective
  have hunion : (P ∪ P.image Prod.swap).card = 2 * P.card := by
    rw [Finset.card_union_of_disjoint hdisj, hcardim]
    omega
  have hle : (P ∪ P.image Prod.swap).card ≤ T.offDiag.card :=
    Finset.card_le_card (Finset.union_subset hsub hsub2)
  rw [hunion, Finset.offDiag_card] at hle
  have hTn : T.card ≤ nodes.length := nodes.toFinset_card_le
  have hsq : T.card * T.card - T.card ≤ nodes.length * (nodes.length - 1) := by
    have h1 : T.card * T.card - T.card = T.card * (T.card - 1) := by
      cases hc : T.card with
      | zero => simp
      | succ k =>
        simp only [Nat.succ_sub_one]
        calc (k + 1) * (k + 1) - (k + 1) = (k + 1) * k + (k + 1) - (k + 1) := by ring_nf
          _ = (k + 1) * k := by omega
    rw [h1]
    exact Nat.mul_le_mul hTn (Nat.sub_le_sub_right hTn 1)
  omega

theorem sample_pairsLoop_stuck (nodes : List Nat) (m : Nat) (stream : Nat → Nat)
    (hm : nodes.length * (nodes.length - 1) < 2 * m) :
    ∀ (fuel step : Nat) (pairs : Finset (Nat × Nat)),
      (∀ p ∈ pairs, p.1 < p.2 ∧ p.1 ∈ nodes ∧ p.2 ∈ nodes) →
      (0 < nodes.length → sample_pairsLoop nodes m stream step fuel pairs = none) ∧
      (nodes.length = 0 → sample_pairsLoop nodes m stream step fuel pairs =
        some PyResult.exn) := by
  intro fuel
  induction fuel with
  | zero =>
    intro step pairs hinv
    have hlt : pairs.card < m := by
      have := pairs_card_bound nodes pairs hinv
      omega
    constructor
    · intro hpos
      unfold sample_pairsLoop
      rw [if_neg (Nat.not_le_of_lt hlt), if_neg (Nat.pos_iff_ne_zero.1 hpos)]
    · intro hzero
      unfold sample_pairsLoop
      rw [if_neg (Nat.not_le_of_lt hlt), if_pos hzero]
  | succ fuel ih =>
    intro step pairs hinv
    have hlt : pairs.card < m := by
      have := pairs_card_bound nodes pairs hinv
      omega
    constructor
    · intro hpos
      have hn : nodes.length ≠ 0 := Nat.pos_iff_ne_zero.1 hpos
      unfold sample_pairsLoop
      rw [if_neg (Nat.not_le_of_lt hlt), if_neg hn]
      set u := nodes.getD (stream step % nodes.length) 0 with hu
      set v := nodes.getD (stream (step + 1) % nodes.length) 0 with hv
      by_cases huv : u ≠ v
      · rw [if_pos huv]
        refine (ih (step + 2) _ ?_).1 hpos
        intro p hp
        rcases Finset.mem_insert.1 hp with rfl | hp
        · by_cases hvu : v < u
          · rw [if_pos hvu]
            exact ⟨hvu, getD_mod_mem hn _, getD_mod_mem hn _⟩
          · rw [if_neg hvu]
            have : u < v := lt_of_le_of_ne (Nat.le_of_not_lt hvu) huv
            exact ⟨this, getD_mod_mem hn _, getD_mod_mem hn _⟩
        · exact hinv p hp
      · rw [if_neg huv]
        exact (ih (step + 2) pairs hinv).1 hpos
    · intro hzero
      unfold sample_pairsLoop
      rw [if_neg (Nat.not_le_of_lt hlt), if_pos hzero]

/-- C9 (amended): a successful return of `sample_pairs` carries exactly `m`
distinct normalised pairs of distinct nodes and forces
`n*(n-1)/2 ≥ m` (for `m ≥ 1` also at least two nodes); when
`n*(n-1)/2 < m` the call never returns a set of pairs — with at least one
node the loop runs forever, with zero nodes `rng.choice` raises
`ValueError` — so `approx_efficiency` with its default `m = 2000` never
returns a value on a graph with fewer than 64 nodes. -/
theorem sample_pairs_termination_spec :
    (∀ (nodes : List Nat) (m : Nat) (stream : Nat → Nat) (fuel : Nat)
        (P : Finset (Nat × Nat)),
      sample_pairs nodes m stream fuel = some (PyResult.ok P) →
      P.card = m ∧ (∀ p ∈ P, p.1 < p.2 ∧ p.1 ∈ nodes ∧ p.2 ∈ nodes) ∧
      m ≤ nodes.length * (nodes.length - 1) / 2 ∧
      (1 ≤ m → 2 ≤ nodes.length)) ∧
    (∀ (nodes : List Nat) (m : Nat) (stream : Nat → Nat),
      nodes.length * (nodes.length - 1) / 2 < m →
      (0 < nodes.length → ∀ fuel, sample_pairs nodes m stream fuel = none) ∧
      (nodes.length = 0 → 1 ≤ m →
        ∀ fuel, sample_pairs nodes m stream fuel = some PyResult.exn)) ∧
    (∀ (G : Graph) (seed : Nat), G.nodes.length < 64 → ∀ fuel,
      approx_efficiency G 2000 seed fuel = none ∨
      approx_efficiency G 2000 seed fuel = some PyResult.exn) := by
  have main : ∀ (nodes : List Nat) (m : Nat) (stream : Nat → Nat) (fuel : Nat)
      (P : Finset (Nat × Nat)),
      sample_pairs nodes m stream fuel = some (PyResult.ok P) →
      P.card = m ∧ (∀ p ∈ P, p.1 < p.2 ∧ p.1 ∈ nodes ∧ p.2 ∈ nodes) ∧
      m ≤ nodes.length * (nodes.length - 1) / 2 ∧
      (1 ≤ m → 2 ≤ nodes.length) := by
    intro nodes m stream fuel P h
    rcases sample_pairsLoop_ok nodes m stream fuel 0 ∅ P h (Nat.zero_le m)
      (by intro p hp; exact absurd hp (Finset.not_mem_empty p)) with ⟨hcard, hinv⟩
    have hbound := pairs_card_bound nodes P hinv
    rw [hcard] at hbound
    have hdiv : m ≤ nodes.length * (nodes.length - 1) / 2 :=
      (Nat.le_div_iff_mul_le (by norm_num)).2 (by omega)
    refine ⟨hcard, hinv, hdiv, fun hm1 => ?_⟩
    by_contra hn2
    have : nodes.length ≤ 1 := by omega
    have : nodes.length * (nodes.length - 1) = 0 := by
      interval_cases h : nodes.length <;> simp
    omega
  have stuck : ∀ (nodes : List Nat) (m : Nat) (stream : Nat → Nat),
      nodes.length * (nodes.length - 1) / 2 < m →
      (0 < nodes.length → ∀ fuel, sample_pairs nodes m stream fuel = none) ∧
      (nodes.length = 0 → 1 ≤ m →
        ∀ fuel, sample_pairs nodes m stream fuel = some PyResult.exn) := by
    intro nodes m stream hdiv
    have hml : nodes.length * (nodes.length - 1) < 2 * m := by
      have := (Nat.div_lt_iff_lt_mul (by norm_num : (0:Nat) < 2)).1 hdiv
      omega
    constructor
    · intro hpos fuel
      exact (sample_pairsLoop_stuck nodes m stream hml fuel 0 ∅
        (by intro p hp; exact absurd hp (Finset.not_mem_empty p))).1 hpos
    · intro hzero _ fuel
      exact (sample_pairsLoop_stuck nodes m stream hml fuel 0 ∅
        (by intro p hp; exact absurd hp (Finset.not_mem_empty p))).2 hzero
  refine ⟨main, stuck, ?_⟩
  intro G seed hlt fuel
  have hdiv : G.nodes.length * (G.nodes.length - 1) / 2 < 2000 := by
    have h1 : G.nodes.length * (G.nodes.length - 1) ≤ 63 * 62 :=
      Nat.mul_le_mul (by omega) (by omega)
    have : G.nodes.length * (G.nodes.length - 1) / 2 ≤ 63 * 62 / 2 :=
      Nat.div_le_div_right h1
    omega
  rcases Nat.eq_zero_or_pos G.nodes.length with hzero | hpos
  · right
    have hs := (stuck G.nodes 2000 (npStream seed) hdiv).2 hzero (by norm_num) fuel
    unfold approx_efficiency
    rw [hs]
  · left
    have hs := (stuck G.nodes 2000 (npStream seed) hdiv).1 hpos fuel
    unfold approx_efficiency
    rw [hs]

/-- Counterexample for C9 as stated: with `m = 0` the loop exits at once on
an empty node list (fewer than two nodes), and with zero nodes and
`m = 1` the call terminates by raising `ValueError` instead of looping
forever. -/
theorem sample_pairs_termination_cx :
    sample_pairs [] 0 (fun _ => 0) 0 = some (PyResult.ok ∅) ∧
    ¬ (2 ≤ ([] : List Nat).length) ∧
    sample_pairs [] 1 (fun _ => 0) 5 = some PyResult.exn :=
  ⟨rfl, by decide, rfl⟩

/-- Witness for C9 (amended) at concrete inputs: a successful sample on
three nodes, and divergence on a two-node graph with the default
`m = 2000`. -/
theorem sample_pairs_termination_spec_witness :
    ((∅ : Finset (Nat × Nat)).card = 0 ∧
      (∀ p ∈ (∅ : Finset (Nat × Nat)), p.1 < p.2 ∧ p.1 ∈ [1, 2, 3] ∧ p.2 ∈ [1, 2, 3]) ∧
      0 ≤ ([1, 2, 3] : List Nat).length * (([1, 2, 3] : List Nat).length - 1) / 2 ∧
      (1 ≤ 0 → 2 ≤ ([1, 2, 3] : List Nat).length)) ∧
    (∀ fuel, approx_efficiency ⟨[1, 2], [(1, 2)], []⟩ 2000 42 fuel = none ∨
      approx_efficiency ⟨[1, 2], [(1, 2)], []⟩ 2000 42 fuel = some PyResult.exn) :=
  ⟨sample_pairs_termination_spec.1 [1, 2, 3] 0 (fun _ => 0) 0 ∅ rfl,
   sample_pairs_termination_spec.2.2 ⟨[1, 2], [(1, 2)], []⟩ 42 (by norm_num)⟩

/-- C5: a successful `approx_efficiency` call returns exactly the
spec-side average — the sum of reciprocal distances over the sampled pairs
that have a connecting path, divided by the number of such pairs (at least
1) — over a sample of exactly `m` distinct unordered pairs of distinct
nodes; and the result is a function of `(G, m, seed)` alone. -/
theorem approx_efficiency_spec (G : Graph) (m seed fuel : Nat) (e : ℚ)
    (h : approx_efficiency G m seed fuel = some (PyResult.ok e)) :
    ∃ P : Finset (Nat × Nat),
      sample_pairs G.nodes m (npStream seed) fuel = some (PyResult.ok P) ∧
      P.card = m ∧
      (∀ p ∈ P, p.1 ≠ p.2 ∧ p.1 ∈ G.nodes ∧ p.2 ∈ G.nodes) ∧
      e = specApproxEfficiency G P ∧
      (∀ (G2 : Graph) (m2 seed2 : Nat), G2 = G → m2 = m → seed2 = seed →
        approx_efficiency G2 m2 seed2 fuel = approx_efficiency G m seed fuel) := by
  unfold approx_efficiency at h
  cases hs : sample_pairs G.nodes m (npStream seed) fuel with
  | none => rw [hs] at h; cases h
  | some r =>
    cases r with
    | exn => rw [hs] at h; cases h
    | ok P =>
      rw [hs] at h
      have he : e = effSum G P / ((max (effGood G P).card 1 : Nat) : ℚ) :=
        (PyResult.ok.inj (Option.some.inj h)).symm
      rcases sample_pairsLoop_ok G.nodes m (npStream seed) fuel 0 ∅ P hs
        (Nat.zero_le m)
        (by intro p hp; exact absurd hp (Finset.not_mem_empty p)) with ⟨hcard, hinv⟩
      have hfilter : effGood G P =
          P.filter (fun p => (distB G p.1 p.2).isSome) := by
        unfold effGood
        refine Finset.filter_congr ?_
        intro p hp
        rcases hinv p hp with ⟨hlt, _, _⟩
        cases hd : distB G p.1 p.2 with
        | none => simp
        | some d =>
          have hpos := distB_pos G hd (Nat.ne_of_lt hlt)
          simp [Nat.pos_iff_ne_zero.1 hpos]
      refine ⟨P, rfl, hcard,
        fun p hp => ⟨Nat.ne_of_lt (hinv p hp).1, (hinv p hp).2.1, (hinv p hp).2.2⟩,
        ?_, fun G2 m2 s2 h1 h2 h3 => by rw [h1, h2, h3]⟩
      rw [he]
      unfold specApproxEfficiency effSum
      rw [hfilter]

/-- Witness for C5 at a concrete call: `m = 0` samples the empty pair set
and returns 0. -/
theorem approx_efficiency_spec_witness :
    approx_efficiency ⟨[1, 2], [(1, 2)], []⟩ 0 42 0 = some (PyResult.ok 0) ∧
    (∃ P : Finset (Nat × Nat),
      sample_pairs [1, 2] 0 (npStream 42) 0 = some (PyResult.ok P) ∧
      P.card = 0 ∧
      (∀ p ∈ P, p.1 ≠ p.2 ∧ p.1 ∈ [1, 2] ∧ p.2 ∈ [1, 2]) ∧
      (0 : ℚ) = specApproxEfficiency ⟨[1, 2], [(1, 2)], []⟩ P ∧
      (∀ (G2 : Graph) (m2 seed2 : Nat), G2 = ⟨[1, 2], [(1, 2)], []⟩ → m2 = 0 →
        seed2 = 42 → approx_efficiency G2 m2 seed2 0 =
          approx_efficiency ⟨[1, 2], [(1, 2)], []⟩ 0 42 0)) := by
  have h : approx_efficiency ⟨[1, 2], [(1, 2)], []⟩ 0 42 0 =
      some (PyResult.ok 0) := by
    norm_num [approx_efficiency, sample_pairs, sample_pairsLoop, effSum, effGood]
  exact ⟨h, approx_efficiency_spec ⟨[1, 2], [(1, 2)], []⟩ 0 42 0 0 h⟩

/-! ### Checkpoints on an emptied working graph (claim C3) -/

theorem sortDescBy_empty (f : Nat → ℚ) : sortDescBy f [] = [] := rfl

theorem adaptiveOrder_empty (orc : CentralityOracles) {key : AttackKey}
    (hkey : key ≠ AttackKey.eigenvector) {G : Graph} (hG : G.nodes = [])
    (removed : Finset Nat) : adaptiveOrder orc key G removed = some [] := by
  cases key with
  | degree => simp [adaptiveOrder, sortDescBy, hG]
  | betweenness => simp [adaptiveOrder, sortDescBy, hG]
  | closeness => simp [adaptiveOrder, sortDescBy, hG]
  | eigenvector => exact absurd rfl hkey

/-- On an emptied working graph, the inner removal loop of
`simulate_targeted_attack` finishes without removing anything and without
touching the graph. -/
theorem taLoopP_empty (orc : CentralityOracles) (key : AttackKey)
    (adaptive : Bool) {G : Graph} (hG : G.nodes = []) :
    ∀ (fuel : Nat) (order : List Nat) (removed : Finset Nat) (k : ℤ),
      order.length < fuel →
      (adaptive = true → order = [] ∨ key ≠ AttackKey.eigenvector) →
      ∃ order2, taLoopP orc key adaptive G removed order k fuel =
          some (PyResult.ok (G, removed, order2)) ∧
        (adaptive = true → order2 = [] ∨ key ≠ AttackKey.eigenvector) := by
  intro fuel
  induction fuel with
  | zero =>
    intro order removed k hlen _
    exact absurd hlen (Nat.not_lt_zero _)
  | succ fuel ih =>
    intro order removed k hlen hsafe
    cases order with
    | nil => exact ⟨[], rfl, fun _ => Or.inl rfl⟩
    | cons target rest =>
      by_cases hc : (removed.card : ℤ) < k
      · have htg : target ∉ G.nodes := by
          rw [hG]
          exact List.not_mem_nil target
        cases adaptive with
        | false =>
          have hstep : taLoopP orc key false G removed (target :: rest) k
              (Nat.succ fuel) = taLoopP orc key false G removed rest k fuel := by
            simp only [taLoopP, if_pos hc, if_neg htg]
            rfl
          rw [hstep]
          refine ih rest removed k ?_ (fun hx => by cases hx)
          have := Nat.lt_of_succ_lt_succ (by simpa using hlen)
          omega
        | true =>
          have hkey : key ≠ AttackKey.eigenvector := by
            rcases hsafe rfl with hord | hk
            · exact absurd hord (List.cons_ne_nil target rest)
            · exact hk
          have hao := adaptiveOrder_empty orc hkey hG removed
          have hstep : taLoopP orc key true G removed (target :: rest) k
              (Nat.succ fuel) = taLoopP orc key true G removed [] k fuel := by
            simp only [taLoopP, if_pos hc, if_neg htg, hao]
            rfl
          rw [hstep]
          cases fuel with
          | zero => exact ⟨[], rfl, fun _ => Or.inl rfl⟩
          | succ fuel2 => exact ⟨[], rfl, fun _ => Or.inl rfl⟩
      · refine ⟨target :: rest, ?_, fun hx => hsafe hx⟩
        simp only [taLoopP, if_neg hc]

/-- On an emptied working graph, every remaining checkpoint of
`simulate_targeted_attack` records the empty-graph metric constants, the
graph stays untouched and the run returns normally. -/
theorem taCheckpointsP_empty (orc : CentralityOracles) (key : AttackKey)
    (adaptive : Bool) (n : Nat) {G : Graph} (hG : G.nodes = []) :
    ∀ (ks : List ℤ) (removed : Finset Nat) (order : List Nat),
      (adaptive = true → order = [] ∨ key ≠ AttackKey.eigenvector) →
      taCheckpointsP orc key adaptive n G removed order ks =
        some (PyResult.ok (G, ks.map (fun k =>
          ⟨⟨0, G.edges.length, 0, 0, none, none, 0, 0⟩, keyString key, adaptive,
            k, (k : ℚ) / (n : ℚ)⟩))) := by
  intro ks
  induction ks with
  | nil =>
    intro removed order _
    rfl
  | cons k ks ih =>
    intro removed order hsafe
    obtain ⟨order2, hloop, hsafe2⟩ := taLoopP_empty orc key adaptive hG
      (G.nodes.length + order.length + 2) order removed k (by omega) hsafe
    have hmg : metrics_on_graph G =
        ⟨0, G.edges.length, 0, 0, none, none, 0, 0⟩ :=
      (metrics_on_graph_total G).2.2 (by rw [hG]; rfl)
    simp only [taCheckpointsP, hloop, ih removed order2 hsafe2, hmg, List.map_cons]

/-- On an emptied working graph, the inner loop of `removal_curve` removes
nothing. -/
theorem rcLoopP_empty {H : Graph} (hH : H.nodes = []) :
    ∀ (order : List Nat) (cnt : Nat) (t : ℤ),
      (rcLoopP H order cnt t).1 = H ∧ (rcLoopP H order cnt t).2.2 = cnt := by
  intro order
  induction order with
  | nil =>
    intro cnt t
    exact ⟨rfl, rfl⟩
  | cons u rest ih =>
    intro cnt t
    by_cases hc : (cnt : ℤ) < t
    · have hu : u ∉ H.nodes := by
        rw [hH]
        exact List.not_mem_nil u
      have hstep : rcLoopP H (u :: rest) cnt t = rcLoopP H rest cnt t := by
        simp only [rcLoopP, if_pos hc, if_neg hu]
      rw [hstep]
      exact ih cnt t
    · have hstep : rcLoopP H (u :: rest) cnt t = (H, u :: rest, cnt) := by
        simp only [rcLoopP, if_neg hc]
      rw [hstep]
      exact ⟨rfl, rfl⟩

/-- On an emptied working graph, every remaining checkpoint of
`removal_curve` records `(q, 0, 0, NaN)` and the run returns normally. -/
theorem rcCheckpointsP_empty (m f n0 : Nat) {H : Graph} (hH : H.nodes = []) :
    ∀ (qs : List ℚ) (order : List Nat) (cnt : Nat),
      rcCheckpointsP m f n0 H order cnt qs =
        some (qs.map (fun q => ⟨q, 0, 0, none⟩)) := by
  intro qs
  induction qs with
  | nil =>
    intro order cnt
    rfl
  | cons q qs ih =>
    intro order cnt
    obtain ⟨h1, -⟩ := rcLoopP_empty hH order cnt (pyTrunc (q * (n0 : ℚ)))
    have hc0 : H.nodes.length = 0 := by
      rw [hH]
      rfl
    simp only [rcCheckpointsP, h1, hc0, if_pos, ih, List.map_cons]

/-- C3: in both `simulate_targeted_attack` and `removal_curve`, once the
working graph is empty every remaining checkpoint reports giant-component
size 0, fraction 0, efficiency 0 and an undefined (`NaN`) path length,
nothing more is removed (the working graph is returned unchanged) and the
run finishes without an error.  For the targeted simulation the statement
carries the side condition that an adaptive eigenvector run has an
exhausted order list: recomputing eigenvector centrality on an empty graph
raises in the library, so an adaptive eigenvector run cannot reach an
empty graph with a node still queued. -/
theorem empty_graph_checkpoints_spec :
    (∀ (orc : CentralityOracles) (key : AttackKey) (adaptive : Bool) (n : Nat)
        (G : Graph) (removed : Finset Nat) (order : List Nat) (ks : List ℤ),
      G.nodes = [] →
      (adaptive = true → order = [] ∨ key ≠ AttackKey.eigenvector) →
      taCheckpointsP orc key adaptive n G removed order ks =
        some (PyResult.ok (G, ks.map (fun k =>
          ⟨⟨0, G.edges.length, 0, 0, none, none, 0, 0⟩, keyString key, adaptive,
            k, (k : ℚ) / (n : ℚ)⟩)))) ∧
    (∀ (m f n0 : Nat) (H : Graph) (order : List Nat) (cnt : Nat) (qs : List ℚ),
      H.nodes = [] →
      rcCheckpointsP m f n0 H order cnt qs =
        some (qs.map (fun q => ⟨q, 0, 0, none⟩))) :=
  ⟨fun orc key adaptive n _ removed order ks hG hsafe =>
     taCheckpointsP_empty orc key adaptive n hG ks removed order hsafe,
   fun m f n0 _ order cnt qs hH => rcCheckpointsP_empty m f n0 hH qs order cnt⟩

/-- Witness for C3 at concrete states: an emptied working graph with a
stale order entry and two remaining checkpoints, in both simulations. -/
theorem empty_graph_checkpoints_spec_witness :
    taCheckpointsP trivOracles AttackKey.degree false 5 emptyGraph ∅ [7] [2, 3] =
      some (PyResult.ok (emptyGraph,
        [⟨⟨0, 0, 0, 0, none, none, 0, 0⟩, "targeted_degree", false, 2, (2 : ℚ) / 5⟩,
         ⟨⟨0, 0, 0, 0, none, none, 0, 0⟩, "targeted_degree", false, 3, (3 : ℚ) / 5⟩])) ∧
    rcCheckpointsP 2000 0 9 emptyGraph [7] 4 [(1 : ℚ)/2, 1] =
      some [⟨(1 : ℚ)/2, 0, 0, none⟩, ⟨1, 0, 0, none⟩] :=
  ⟨empty_graph_checkpoints_spec.1 trivOracles AttackKey.degree false 5 emptyGraph
     ∅ [7] [2, 3] rfl (fun hx => by cases hx),
   empty_graph_checkpoints_spec.2 2000 0 9 emptyGraph [7] 4 [(1 : ℚ)/2, 1] rfl⟩

/-! ### Monotonicity of the giant-component curve (claim C1) -/

theorem lcc_size_eq_getD (G : Graph) :
    lcc_size G = ((maxByLen (connected_components G)).getD ∅).card := by
  unfold lcc_size
  cases maxByLen (connected_components G) with
  | none => rfl
  | some c => rfl

theorem rcLoopP_isSubgraph :
    ∀ (order : List Nat) (H : Graph) (cnt : Nat) (t : ℤ),
      IsSubgraphOf (rcLoopP H order cnt t).1 H := by
  intro order
  induction order with
  | nil =>
    intro H cnt t
    exact isSubgraphOf_refl H
  | cons u rest ih =>
    intro H cnt t
    by_cases hc : (cnt : ℤ) < t
    · by_cases hu : u ∈ H.nodes
      · have hstep : rcLoopP H (u :: rest) cnt t =
            rcLoopP (removeNode H u) rest (cnt + 1) t := by
          simp only [rcLoopP, if_pos hc, if_pos hu]
        rw [hstep]
        exact isSubgraphOf_trans (ih (removeNode H u) (cnt + 1) t)
          (removeNode_isSubgraphOf H u)
      · have hstep : rcLoopP H (u :: rest) cnt t = rcLoopP H rest cnt t := by
          simp only [rcLoopP, if_pos hc, if_neg hu]
        rw [hstep]
        exact ih H cnt t
    · have hstep : rcLoopP H (u :: rest) cnt t = (H, u :: rest, cnt) := by
        simp only [rcLoopP, if_neg hc]
      rw [hstep]
      exact isSubgraphOf_refl H

theorem div_cast_mono {a b : Nat} {c : ℚ} (h : a ≤ b) (hc : 0 ≤ c) :
    (a : ℚ) / c ≤ (b : ℚ) / c := by
  rcases eq_or_lt_of_le hc with rfl | hc
  · simp
  · have hab : (a : ℚ) ≤ (b : ℚ) := by exact_mod_cast h
    gcongr

theorem rcCheckpointsP_S_bound (m f n0 : Nat) :
    ∀ (qs : List ℚ) (H : Graph) (order : List Nat) (cnt : Nat)
        (recs : List RcRecord),
      rcCheckpointsP m f n0 H order cnt qs = some recs →
      (∀ r ∈ recs, r.S ≤ (lcc_size H : ℚ) / (n0 : ℚ)) ∧
      List.Chain' (fun a b => b.S ≤ a.S) recs := by
  intro qs
  induction qs with
  | nil =>
    intro H order cnt recs h
    have : recs = [] := (Option.some.inj h).symm
    subst this
    exact ⟨fun r hr => absurd hr (List.not_mem_nil r), List.chain'_nil⟩
  | cons q qs ih =>
    intro H order cnt recs h
    have hsub : IsSubgraphOf (rcLoopP H order cnt (pyTrunc (q * (n0 : ℚ)))).1 H :=
      rcLoopP_isSubgraph order H cnt _
    have hlcc : lcc_size (rcLoopP H order cnt (pyTrunc (q * (n0 : ℚ)))).1 ≤
        lcc_size H := lcc_size_mono hsub
    set st := rcLoopP H order cnt (pyTrunc (q * (n0 : ℚ))) with hst
    simp only [rcCheckpointsP] at h
    by_cases hemp : st.1.nodes.length = 0
    · rw [if_pos hemp] at h
      cases hrec : rcCheckpointsP m f n0 st.1 st.2.1 st.2.2 qs with
      | none => rw [hrec] at h; cases h
      | some recs2 =>
        rw [hrec] at h
        have hrecs : recs = ⟨q, 0, 0, none⟩ :: recs2 := (Option.some.inj h).symm
        subst hrecs
        obtain ⟨hbound2, hchain2⟩ := ih st.1 st.2.1 st.2.2 recs2 hrec
        have hlcc0 : lcc_size st.1 = 0 := by
          have : connected_components st.1 = [] :=
            (connected_components_eq_nil_iff st.1).2 (List.length_eq_zero.1 hemp)
          unfold lcc_size
          rw [this]
          rfl
        have hbound0 : ∀ r ∈ recs2, r.S ≤ 0 := by
          intro r hr
          have := hbound2 r hr
          rwa [hlcc0, Nat.cast_zero, zero_div] at this
        constructor
        · intro r hr
          rcases List.mem_cons.1 hr with rfl | hr
          · exact div_nonneg (Nat.cast_nonneg _) (Nat.cast_nonneg _)
          · exact le_trans (hbound0 r hr)
              (div_nonneg (Nat.cast_nonneg _) (Nat.cast_nonneg _))
        · rw [List.chain'_cons']
          refine ⟨fun b hb => ?_, hchain2⟩
          exact hbound0 b (List.mem_of_mem_head? hb)
    · rw [if_neg hemp] at h
      cases happ : approx_efficiency
          (inducedSubgraph st.1 ((maxByLen (connected_components st.1)).getD ∅))
          m 123 f with
      | none => rw [happ] at h; cases h
      | some r =>
        cases r with
        | exn => rw [happ] at h; cases h
        | ok E =>
          rw [happ] at h
          cases hrec : rcCheckpointsP m f n0 st.1 st.2.1 st.2.2 qs with
          | none => rw [hrec] at h; cases h
          | some recs2 =>
            rw [hrec] at h
            have hrecs : recs =
                ⟨q, ((((maxByLen (connected_components st.1)).getD ∅).card : ℚ) /
                  (n0 : ℚ)), E,
                 average_shortest_path_length
                   (inducedSubgraph st.1
                     ((maxByLen (connected_components st.1)).getD ∅))⟩ :: recs2 :=
              (Option.some.inj h).symm
            subst hrecs
            obtain ⟨hbound2, hchain2⟩ := ih st.1 st.2.1 st.2.2 recs2 hrec
            have hS : (((maxByLen (connected_components st.1)).getD ∅).card : ℚ) /
                (n0 : ℚ) = ((lcc_size st.1 : ℚ)) / (n0 : ℚ) := by
              rw [lcc_size_eq_getD]
            constructor
            · intro r hr
              rcases List.mem_cons.1 hr with rfl | hr
              · simp only [hS]
                exact div_cast_mono hlcc (Nat.cast_nonneg _)
              · exact le_trans (hbound2 r hr)
                  (div_cast_mono hlcc (Nat.cast_nonneg _))
            · rw [List.chain'_cons']
              refine ⟨fun b hb => ?_, hchain2⟩
              have := hbound2 b (List.mem_of_mem_head? hb)
              simp only [hS]
              exact this

/-- C1 (amended): along a `removal_curve` run, where the recorded
giant-component fraction `S(q)` is relative to the original node count, the
fractions are non-increasing from checkpoint to checkpoint. -/
theorem removal_curve_S_monotone (G : Graph) (order : List Nat) (qs : List ℚ)
    (m effFuel : Nat) (recs : List RcRecord)
    (h : removal_curve G order qs m effFuel = some recs) :
    List.Chain' (fun a b => b.S ≤ a.S) recs :=
  (rcCheckpointsP_S_bound m effFuel G.nodes.length qs G order 0 recs h).2

/-- Witness for C1 (amended) at a concrete run. -/
theorem removal_curve_S_monotone_witness :
    List.Chain' (fun a b : RcRecord => b.S ≤ a.S)
      [⟨0, 0, 0, none⟩, ⟨(1 : ℚ)/2, 0, 0, none⟩] :=
  removal_curve_S_monotone emptyGraph [5] [0, (1 : ℚ)/2] 2000 0
    [⟨0, 0, 0, none⟩, ⟨(1 : ℚ)/2, 0, 0, none⟩]
    (rcCheckpointsP_empty 2000 0 0 rfl [0, (1 : ℚ)/2] [5] 0)

theorem orderedInsert_congr {r s : Nat → Nat → Prop} [DecidableRel r]
    [DecidableRel s] (hrs : ∀ a b, r a b ↔ s a b) (a : Nat) :
    ∀ l : List Nat, List.orderedInsert r a l = List.orderedInsert s a l := by
  intro l
  induction l with
  | nil => rfl
  | cons b t ih =>
    simp only [List.orderedInsert]
    by_cases h : r a b
    · rw [if_pos h, if_pos ((hrs a b).1 h)]
    · rw [if_neg h, if_neg (fun hs => h ((hrs a b).2 hs)), ih]

theorem insertionSort_congr {r s : Nat → Nat → Prop} [DecidableRel r]
    [DecidableRel s] (hrs : ∀ a b, r a b ↔ s a b) :
    ∀ l : List Nat, List.insertionSort r l = List.insertionSort s l := by
  intro l
  induction l with
  | nil => rfl
  | cons a t ih =>
    simp only [List.insertionSort]
    rw [ih, orderedInsert_congr hrs]

theorem sortDescBy_natCast (f : Nat → Nat) (l : List Nat) :
    sortDescBy (fun v => (f v : ℚ)) l =
      List.insertionSort (fun a b => f b ≤ f a) l :=
  insertionSort_congr (fun _ _ => Nat.cast_le) l

/-- C1 counterexample: in `simulate_targeted_attack` the recorded
`lcc_fraction` is relative to the *remaining* node count, so removing a
high-degree hub that lies outside the giant component makes the fraction
rise.  On a 4-cycle `1-2-3-4` plus a star with hub `5` and leaves
`6,7,8`, the degree-targeted removal of one node deletes the hub and the
recorded fractions go `1/2` then `4/7`. -/
theorem lcc_fraction_increases_cx :
    lccFracsOf (simulate_targeted_attack trivOracles AttackKey.degree false
        cycleStarGraph 1 (1/8)) = some [1/2, 4/7] ∧
    ¬ ((4 : ℚ)/7 ≤ 1/2) := by
  constructor
  · have hlen8 : cycleStarGraph.nodes.length = 8 := rfl
    have hsched : removal_sequence_by_fraction cycleStarGraph.nodes 1 (1/8) =
        [0, 1] := by
      norm_num [cycleStarGraph, removal_sequence_by_fraction, pyDedup, pyDedupGo,
        pyRound, List.insertionSort, List.orderedInsert, Int.floor_eq_iff]
    have horder : initialOrder trivOracles AttackKey.degree cycleStarGraph =
        some [5, 1, 2, 3, 4, 6, 7, 8] := by
      rw [show initialOrder trivOracles AttackKey.degree cycleStarGraph =
        some (sortDescBy (fun v => (degreeOf cycleStarGraph v : ℚ))
          cycleStarGraph.nodes) from rfl]
      rw [sortDescBy_natCast]
      decide
    have hloop0 : taLoopP trivOracles AttackKey.degree false cycleStarGraph ∅
        [5, 1, 2, 3, 4, 6, 7, 8] 0 18 =
        some (PyResult.ok (cycleStarGraph, ∅, [5, 1, 2, 3, 4, 6, 7, 8])) := by
      decide
    have hloop1 : taLoopP trivOracles AttackKey.degree false cycleStarGraph ∅
        [5, 1, 2, 3, 4, 6, 7, 8] 1 18 =
        some (PyResult.ok (cycleStarGraphAfter, {5}, [1, 2, 3, 4, 6, 7, 8])) := by
      decide
    have hf0 : (metrics_on_graph cycleStarGraph).lcc_fraction = 1/2 := by
      have h4 : (inducedSubgraph cycleStarGraph
          ((maxByLen (connected_components cycleStarGraph)).getD ∅)).nodes.length
          = 4 := by decide
      have hne : ¬ (cycleStarGraph.nodes.length = 0) := by decide
      simp only [metrics_on_graph, if_neg hne]
      rw [h4, hlen8]
      norm_num
    have hf1 : (metrics_on_graph cycleStarGraphAfter).lcc_fraction = 4/7 := by
      have h4 : (inducedSubgraph cycleStarGraphAfter
          ((maxByLen (connected_components cycleStarGraphAfter)).getD
            ∅)).nodes.length = 4 := by decide
      have hne : ¬ (cycleStarGraphAfter.nodes.length = 0) := by decide
      have hlen7 : cycleStarGraphAfter.nodes.length = 7 := rfl
      simp only [metrics_on_graph, if_neg hne]
      rw [h4, hlen7]
      norm_num
    simp only [simulate_targeted_attack, horder, hsched, taCheckpointsP, hlen8,
      List.length_cons, List.length_nil]
    norm_num
    rw [hloop0]
    simp only [hlen8, List.length_cons, List.length_nil]
    norm_num
    rw [hloop1]
    simp only [lccFracsOf, List.map_cons, List.map_nil, hf0, hf1]
  · norm_num

/-! ### Eigenvector non-convergence in the adaptive loop (claim C6) -/

theorem mem_sortDescBy {f : Nat → ℚ} {l : List Nat} {x : Nat}
    (h : x ∈ sortDescBy f l) : x ∈ l :=
  (List.perm_insertionSort _ l).mem_iff.1 h

theorem adaptiveOrder_subset (orc : CentralityOracles) (key : AttackKey)
    (G : Graph) (removed : Finset Nat) {newOrder : List Nat}
    (h : adaptiveOrder orc key G removed = some newOrder) :
    ∀ x ∈ newOrder, x ∈ G.nodes := by
  intro x hx
  cases key with
  | degree =>
    have : newOrder = (sortDescBy (fun v => (degreeOf G v : ℚ)) G.nodes).filter
        (fun n => n ∉ removed) := (Option.some.inj h).symm
    subst this
    exact mem_sortDescBy (List.mem_of_mem_filter hx)
  | betweenness =>
    have : newOrder = (sortDescBy (orc.betw G) G.nodes).filter
        (fun n => n ∉ removed) := (Option.some.inj h).symm
    subst this
    exact mem_sortDescBy (List.mem_of_mem_filter hx)
  | closeness =>
    have : newOrder = (sortDescBy (orc.close G) G.nodes).filter
        (fun n => n ∉ removed) := (Option.some.inj h).symm
    subst this
    exact mem_sortDescBy (List.mem_of_mem_filter hx)
  | eigenvector =>
    unfold adaptiveOrder at h
    cases hc : computeEig orc G with
    | none => rw [hc] at h; cases h
    | some c =>
      rw [hc] at h
      have : newOrder = (sortDescBy c G.nodes).filter (fun n => n ∉ removed) :=
        (Option.some.inj h).symm
      subst this
      exact mem_sortDescBy (List.mem_of_mem_filter hx)

theorem adaptiveOrder_isSome (orc : CentralityOracles) (key : AttackKey)
    (hpow : ∀ H, (orc.eigPower H).isSome) (G : Graph) (removed : Finset Nat) :
    (adaptiveOrder orc key G removed).isSome := by
  cases key with
  | degree => rfl
  | betweenness => rfl
  | closeness => rfl
  | eigenvector =>
    unfold adaptiveOrder computeEig
    cases hn : orc.eigNumpy G with
    | some c => rfl
    | none =>
      cases hp : orc.eigPower G with
      | none =>
        have := hpow G
        rw [hp] at this
        cases this
      | some c => rfl

/-- With a total adaptive recomputation, the inner loop always finishes
normally when its order list lives inside the graph and the fuel exceeds
the node count. -/
theorem taLoopP_adaptive_ok (orc : CentralityOracles) (key : AttackKey)
    (hsome : ∀ G removed, (adaptiveOrder orc key G removed).isSome) :
    ∀ (fuel : Nat) (G : Graph) (removed : Finset Nat) (order : List Nat)
      (k : ℤ),
      (∀ x ∈ order, x ∈ G.nodes) → G.nodes.length < fuel →
      ∃ st, taLoopP orc key true G removed order k fuel =
        some (PyResult.ok st) := by
  intro fuel
  induction fuel with
  | zero =>
    intro G removed order k _ hf
    exact absurd hf (Nat.not_lt_zero _)
  | succ fuel ih =>
    intro G removed order k horder hf
    cases order with
    | nil => exact ⟨(G, removed, []), rfl⟩
    | cons target rest =>
      by_cases hc : (removed.card : ℤ) < k
      · have htg : target ∈ G.nodes := horder target (List.mem_cons_self _ _)
        obtain ⟨newOrder, hno⟩ := Option.isSome_iff_exists.1
          (hsome (removeNode G target) (insert target removed))
        have hstep : taLoopP orc key true G removed (target :: rest) k
            (Nat.succ fuel) = taLoopP orc key true (removeNode G target)
              (insert target removed) newOrder k fuel := by
          simp only [taLoopP, if_pos hc, if_pos htg, hno]
          rfl
        rw [hstep]
        refine ih (removeNode G target) (insert target removed) newOrder k
          (adaptiveOrder_subset orc key _ _ hno) ?_
        have herase : (removeNode G target).nodes.length =
            G.nodes.length - 1 := List.length_erase_of_mem htg
        have hpos : 1 ≤ G.nodes.length :=
          List.length_pos.2 (List.ne_nil_of_mem htg)
        omega
      · refine ⟨(G, removed, target :: rest), ?_⟩
        simp only [taLoopP, if_neg hc]

/-- Entry form of the previous lemma, with the fuel supplied by the
checkpoint loop and an arbitrary order list. -/
theorem taLoopP_adaptive_ok_entry (orc : CentralityOracles) (key : AttackKey)
    (hsome : ∀ G removed, (adaptiveOrder orc key G removed).isSome)
    (G : Graph) (removed : Finset Nat) (order : List Nat) (k : ℤ) :
    ∃ st, taLoopP orc key true G removed order k
      (G.nodes.length + order.length + 2) = some (PyResult.ok st) := by
  cases order with
  | nil => exact ⟨(G, removed, []), rfl⟩
  | cons target rest =>
    have hfuel : G.nodes.length + (target :: rest).length + 2 =
        Nat.succ (G.nodes.length + rest.length + 2) := by
      simp only [List.length_cons]
      omega
    rw [hfuel]
    by_cases hc : (removed.card : ℤ) < k
    · by_cases htg : target ∈ G.nodes
      · obtain ⟨newOrder, hno⟩ := Option.isSome_iff_exists.1
          (hsome (removeNode G target) (insert target removed))
        have hstep : taLoopP orc key true G removed (target :: rest) k
            (Nat.succ (G.nodes.length + rest.length + 2)) =
            taLoopP orc key true (removeNode G target) (insert target removed)
              newOrder k (G.nodes.length + rest.length + 2) := by
          simp only [taLoopP, if_pos hc, if_pos htg, hno]
          rfl
        rw [hstep]
        refine taLoopP_adaptive_ok orc key hsome _ _ _ newOrder k
          (adaptiveOrder_subset orc key _ _ hno) ?_
        have herase : (removeNode G target).nodes.length =
            G.nodes.length - 1 := List.length_erase_of_mem htg
        omega
      · obtain ⟨newOrder, hno⟩ := Option.isSome_iff_exists.1
          (hsome G removed)
        have hstep : taLoopP orc key true G removed (target :: rest) k
            (Nat.succ (G.nodes.length + rest.length + 2)) =
            taLoopP orc key true G removed newOrder k
              (G.nodes.length + rest.length + 2) := by
          simp only [taLoopP, if_pos hc, if_neg htg, hno]
          rfl
        rw [hstep]
        refine taLoopP_adaptive_ok orc key hsome _ _ _ newOrder k
          (adaptiveOrder_subset orc key _ _ hno) ?_
        omega
    · refine ⟨(G, removed, target :: rest), ?_⟩
      simp only [taLoopP, if_neg hc]

/-- With a total adaptive recomputation the checkpoint loop returns
normally and emits exactly one record per schedule entry. -/
theorem taCheckpointsP_adaptive_ok (orc : CentralityOracles) (key : AttackKey)
    (hsome : ∀ G removed, (adaptiveOrder orc key G removed).isSome) (n : Nat) :
    ∀ (ks : List ℤ) (G : Graph) (removed : Finset Nat) (order : List Nat),
      ∃ GF recs, taCheckpointsP orc key true n G removed order ks =
        some (PyResult.ok (GF, recs)) ∧ recs.length = ks.length := by
  intro ks
  induction ks with
  | nil =>
    intro G removed order
    exact ⟨G, [], rfl, rfl⟩
  | cons k ks ih =>
    intro G removed order
    obtain ⟨st, hst⟩ := taLoopP_adaptive_ok_entry orc key hsome G removed order k
    obtain ⟨GF, recs, hrec, hlen⟩ := ih st.1 st.2.1 st.2.2
    refine ⟨GF, ⟨metrics_on_graph st.1, keyString key, true, k,
      (k : ℚ) / (n : ℚ)⟩ :: recs, ?_, by simp [hlen]⟩
    simp only [taCheckpointsP, hst, hrec]

/-- C6 (amended): a failure of `nx.eigenvector_centrality_numpy` alone never
aborts the simulation — the code falls back to power iteration, and as long
as the fallback converges (on the initial graph and at every adaptive
recomputation) the run returns normally with exactly one checkpoint record
per schedule entry.  If the fallback itself fails to converge, the
exception propagates and the run aborts (see the counterexample for the
original claim). -/
theorem simulate_targeted_eigen_fallback (orc : CentralityOracles)
    (hpow : ∀ H, (orc.eigPower H).isSome) (G : Graph) (steps : Nat)
    (max_frac : ℚ) :
    ∃ recs, simulate_targeted_attack orc AttackKey.eigenvector true G steps
        max_frac = some (PyResult.ok recs) ∧
      recs.length =
        (removal_sequence_by_fraction G.nodes steps max_frac).length := by
  have hsome : ∀ H removed,
      (adaptiveOrder orc AttackKey.eigenvector H removed).isSome :=
    fun H removed => adaptiveOrder_isSome orc AttackKey.eigenvector hpow H removed
  have hinit : ∃ order0, initialOrder orc AttackKey.eigenvector G = some order0 := by
    unfold initialOrder computeEig
    cases hn : orc.eigNumpy G with
    | some c => exact ⟨sortDescBy c G.nodes, rfl⟩
    | none =>
      cases hp : orc.eigPower G with
      | none =>
        have := hpow G
        rw [hp] at this
        cases this
      | some c => exact ⟨sortDescBy c G.nodes, rfl⟩
  obtain ⟨order0, horder0⟩ := hinit
  obtain ⟨GF, recs, hck, hlen⟩ := taCheckpointsP_adaptive_ok orc
    AttackKey.eigenvector hsome G.nodes.length
    (removal_sequence_by_fraction G.nodes steps max_frac) G ∅ order0
  refine ⟨recs, ?_, hlen⟩
  simp only [simulate_targeted_attack, horder0, hck]

/-- Witness for C6 (amended): with the numpy routine always raising and
the fallback always converging, a concrete adaptive eigenvector run
returns normally with one record per schedule entry. -/
theorem simulate_targeted_eigen_fallback_witness :
    ∃ recs, simulate_targeted_attack noNumpyOracles AttackKey.eigenvector true
        triangleGraph 1 (1/3) = some (PyResult.ok recs) ∧
      recs.length =
        (removal_sequence_by_fraction triangleGraph.nodes 1 (1/3)).length :=
  simulate_targeted_eigen_fallback noNumpyOracles (fun _ => rfl)
    triangleGraph 1 (1/3)

/-- C6 counterexample: when the fallback power iteration also fails to
converge during an adaptive recomputation, the exception propagates and
the run aborts with no records — here on a triangle whose numpy routine
succeeds initially (three nodes) but fails after the first removal. -/
theorem eigen_fallback_abort_cx :
    simulate_targeted_attack failingOracles AttackKey.eigenvector true
      triangleGraph 1 (1/3) = some PyResult.exn := by
  have hlen3 : triangleGraph.nodes.length = 3 := rfl
  have hsched : removal_sequence_by_fraction triangleGraph.nodes 1 (1/3) =
      [0, 1] := by
    norm_num [triangleGraph, removal_sequence_by_fraction, pyDedup, pyDedupGo,
      pyRound, List.insertionSort, List.orderedInsert, Int.floor_eq_iff]
  have horder : initialOrder failingOracles AttackKey.eigenvector triangleGraph =
      some [1, 2, 3] := by
    rw [show initialOrder failingOracles AttackKey.eigenvector triangleGraph =
      some (sortDescBy (fun _ => (1 : ℚ)) triangleGraph.nodes) from rfl]
    norm_num [sortDescBy, List.insertionSort, List.orderedInsert, triangleGraph]
  have hloopA : taLoopP failingOracles AttackKey.eigenvector true triangleGraph
      ∅ [1, 2, 3] 0 8 = some (PyResult.ok (triangleGraph, ∅, [1, 2, 3])) := by
    decide
  have hloopB : taLoopP failingOracles AttackKey.eigenvector true triangleGraph
      ∅ [1, 2, 3] 1 8 = some PyResult.exn := by
    decide
  simp only [simulate_targeted_attack, horder, hsched, taCheckpointsP, hlen3,
    List.length_cons, List.length_nil]
  norm_num
  rw [hloopA]
  simp only [hlen3, List.length_cons, List.length_nil]
  norm_num
  rw [hloopB]

/-! ### The caller's graph object is never mutated (claim C2) -/

theorem getD_set_ne (l : List Graph) (j : Nat) (a : Graph) (i : Nat) (d : Graph)
    (hij : i ≠ j) : (l.set j a).getD i d = l.getD i d := by
  induction l generalizing i j with
  | nil => simp
  | cons b t ih =>
    cases j with
    | zero =>
      cases i with
      | zero => exact absurd rfl hij
      | succ i => simp [List.set]
    | succ j =>
      cases i with
      | zero => simp [List.set]
      | succ i =>
        simp only [List.set, List.getD_cons_succ]
        exact ih _ _ (by omega)

theorem hget_hremove_ne (heap : List Graph) (j x i : Nat) (hij : i ≠ j) :
    hget (hremove heap j x) i = hget heap i :=
  getD_set_ne heap j _ i emptyGraph hij

theorem hremove_length (heap : List Graph) (j x : Nat) :
    (hremove heap j x).length = heap.length :=
  heap.length_set j _

theorem hget_append_lt (heap l : List Graph) (i : Nat) (hi : i < heap.length) :
    hget (heap ++ l) i = hget heap i := by
  unfold hget
  induction heap generalizing i with
  | nil => exact absurd hi (Nat.not_lt_zero i)
  | cons b t ih =>
    cases i with
    | zero => rfl
    | succ i =>
      simp only [List.cons_append, List.getD_cons_succ]
      exact ih i (Nat.lt_of_succ_lt_succ hi)

theorem rcLoopH_frame (h0 : Nat) :
    ∀ (order : List Nat) (heap : List Graph) (cnt : Nat) (t : ℤ),
      (∀ i, i ≠ h0 → hget (rcLoopH h0 heap order cnt t).1 i = hget heap i) ∧
      (rcLoopH h0 heap order cnt t).1.length = heap.length := by
  intro order
  induction order with
  | nil =>
    intro heap cnt t
    exact ⟨fun i _ => rfl, rfl⟩
  | cons u rest ih =>
    intro heap cnt t
    by_cases hc : (cnt : ℤ) < t
    · by_cases hu : u ∈ (hget heap h0).nodes
      · have hstep : rcLoopH h0 heap (u :: rest) cnt t =
            rcLoopH h0 (hremove heap h0 u) rest (cnt + 1) t := by
          simp only [rcLoopH, if_pos hc, if_pos hu]
        rw [hstep]
        obtain ⟨hf, hl⟩ := ih (hremove heap h0 u) (cnt + 1) t
        refine ⟨fun i hi => ?_, by rw [hl, hremove_length]⟩
        rw [hf i hi, hget_hremove_ne heap h0 u i hi]
      · have hstep : rcLoopH h0 heap (u :: rest) cnt t =
            rcLoopH h0 heap rest cnt t := by
          simp only [rcLoopH, if_pos hc, if_neg hu]
        rw [hstep]
        exact ih heap cnt t
    · have hstep : rcLoopH h0 heap (u :: rest) cnt t = (heap, u :: rest, cnt) := by
        simp only [rcLoopH, if_neg hc]
      rw [hstep]
      exact ⟨fun i _ => rfl, rfl⟩

theorem rcCheckpointsH_frame (m f n0 h0 : Nat) :
    ∀ (qs : List ℚ) (heap : List Graph) (order : List Nat) (cnt : Nat)
        (heapF : List Graph) (recs : List RcRecord),
      rcCheckpointsH m f n0 heap h0 order cnt qs = some (heapF, recs) →
      (∀ i, i ≠ h0 → hget heapF i = hget heap i) ∧ heapF.length = heap.length := by
  intro qs
  induction qs with
  | nil =>
    intro heap order cnt heapF recs h
    have h2 : (heap, ([] : List RcRecord)) = (heapF, recs) := Option.some.inj h
    have hh : heapF = heap := (congrArg Prod.fst h2).symm
    subst hh
    exact ⟨fun i _ => rfl, rfl⟩
  | cons q qs ih =>
    intro heap order cnt heapF recs h
    obtain ⟨hf1, hl1⟩ := rcLoopH_frame h0 order heap cnt (pyTrunc (q * (n0 : ℚ)))
    set st := rcLoopH h0 heap order cnt (pyTrunc (q * (n0 : ℚ))) with hst
    simp only [rcCheckpointsH] at h
    by_cases hemp : (hget st.1 h0).nodes.length = 0
    · rw [if_pos hemp] at h
      cases hrec : rcCheckpointsH m f n0 st.1 h0 st.2.1 st.2.2 qs with
      | none => rw [hrec] at h; cases h
      | some pr =>
        rw [hrec] at h
        obtain ⟨heap2, recs2⟩ := pr
        have hh : heapF = heap2 := (congrArg Prod.fst (Option.some.inj h)).symm
        subst hh
        obtain ⟨hf2, hl2⟩ := ih st.1 st.2.1 st.2.2 heapF recs2 hrec
        exact ⟨fun i hi => by rw [hf2 i hi, hf1 i hi],
          by rw [hl2, hl1]⟩
    · rw [if_neg hemp] at h
      cases happ : approx_efficiency
          (inducedSubgraph (hget st.1 h0)
            ((maxByLen (connected_components (hget st.1 h0))).getD ∅)) m 123 f with
      | none => rw [happ] at h; cases h
      | some r =>
        cases r with
        | exn => rw [happ] at h; cases h
        | ok E =>
          rw [happ] at h
          cases hrec : rcCheckpointsH m f n0 st.1 h0 st.2.1 st.2.2 qs with
          | none => rw [hrec] at h; cases h
          | some pr =>
            rw [hrec] at h
            obtain ⟨heap2, recs2⟩ := pr
            have hh : heapF = heap2 := (congrArg Prod.fst (Option.some.inj h)).symm
            subst hh
            obtain ⟨hf2, hl2⟩ := ih st.1 st.2.1 st.2.2 heapF recs2 hrec
            exact ⟨fun i hi => by rw [hf2 i hi, hf1 i hi],
              by rw [hl2, hl1]⟩

theorem removal_curveH_preserves (heap : List Graph) (h : Nat)
    (nodes_order : List Nat) (qs : List ℚ) (m_pairs effFuel : Nat)
    (hh : h < heap.length) :
    preservesHandle h heap
      (removal_curveH heap h nodes_order qs m_pairs effFuel) := by
  intro pr hpr
  obtain ⟨p1, p2⟩ := pr
  simp only [removal_curveH] at hpr
  obtain ⟨hf, _⟩ := rcCheckpointsH_frame m_pairs effFuel
    (hget heap h).nodes.length heap.length qs (heap ++ [hget heap h])
    nodes_order 0 p1 p2 hpr
  show hget p1 h = hget heap h
  rw [hf h (Nat.ne_of_lt hh)]
  exact hget_append_lt heap _ h hh

theorem taLoopH_frame (orc : CentralityOracles) (key : AttackKey)
    (adaptive : Bool) (h0 : Nat) :
    ∀ (fuel : Nat) (heap : List Graph) (removed : Finset Nat)
        (order : List Nat) (k : ℤ) (heapF : List Graph)
        (r : PyResult (Finset Nat × List Nat)),
      taLoopH orc key adaptive h0 heap removed order k fuel =
        some (heapF, r) →
      (∀ i, i ≠ h0 → hget heapF i = hget heap i) ∧
        heapF.length = heap.length := by
  intro fuel
  induction fuel with
  | zero =>
    intro heap removed order k heapF r h
    cases order with
    | nil =>
      simp only [taLoopH] at h
      have hh : heapF = heap := (congrArg Prod.fst (Option.some.inj h)).symm
      subst hh
      exact ⟨fun i _ => rfl, rfl⟩
    | cons target rest =>
      simp only [taLoopH] at h
      by_cases hc : (removed.card : ℤ) < k
      · rw [if_pos hc] at h
        cases h
      · rw [if_neg hc] at h
        have hh : heapF = heap := (congrArg Prod.fst (Option.some.inj h)).symm
        subst hh
        exact ⟨fun i _ => rfl, rfl⟩
  | succ fuel ih =>
    intro heap removed order k heapF r h
    cases order with
    | nil =>
      simp only [taLoopH] at h
      have hh : heapF = heap := (congrArg Prod.fst (Option.some.inj h)).symm
      subst hh
      exact ⟨fun i _ => rfl, rfl⟩
    | cons target rest =>
      simp only [taLoopH] at h
      by_cases hc : (removed.card : ℤ) < k
      · rw [if_pos hc] at h
        by_cases htg : target ∈ (hget heap h0).nodes
        · rw [if_pos htg] at h
          by_cases hadp : adaptive = true
          · rw [if_pos hadp] at h
            cases hao : adaptiveOrder orc key
                (hget (hremove heap h0 target) h0) (insert target removed) with
            | none =>
              rw [hao] at h
              have hh : heapF = hremove heap h0 target :=
                (congrArg Prod.fst (Option.some.inj h)).symm
              subst hh
              exact ⟨fun i hi => hget_hremove_ne heap h0 target i hi,
                hremove_length heap h0 target⟩
            | some newOrder =>
              rw [hao] at h
              obtain ⟨hf, hl⟩ := ih (hremove heap h0 target)
                (insert target removed) newOrder k heapF r h
              exact ⟨fun i hi => by
                  rw [hf i hi, hget_hremove_ne heap h0 target i hi],
                by rw [hl, hremove_length]⟩
          · rw [if_neg hadp] at h
            obtain ⟨hf, hl⟩ := ih (hremove heap h0 target)
              (insert target removed) rest k heapF r h
            exact ⟨fun i hi => by
                rw [hf i hi, hget_hremove_ne heap h0 target i hi],
              by rw [hl, hremove_length]⟩
        · rw [if_neg htg] at h
          by_cases hadp : adaptive = true
          · rw [if_pos hadp] at h
            cases hao : adaptiveOrder orc key (hget heap h0) removed with
            | none =>
              rw [hao] at h
              have hh : heapF = heap :=
                (congrArg Prod.fst (Option.some.inj h)).symm
              subst hh
              exact ⟨fun i _ => rfl, rfl⟩
            | some newOrder =>
              rw [hao] at h
              exact ih heap removed newOrder k heapF r h
          · rw [if_neg hadp] at h
            exact ih heap removed rest k heapF r h
      · rw [if_neg hc] at h
        have hh : heapF = heap := (congrArg Prod.fst (Option.some.inj h)).symm
        subst hh
        exact ⟨fun i _ => rfl, rfl⟩

theorem taCheckpointsH_frame (orc : CentralityOracles) (key : AttackKey)
    (adaptive : Bool) (n h0 : Nat) :
    ∀ (ks : List ℤ) (heap : List Graph) (removed : Finset Nat)
        (order : List Nat) (heapF : List Graph) (r : PyResult (List TaRecord)),
      taCheckpointsH orc key adaptive n heap h0 removed order ks =
        some (heapF, r) →
      (∀ i, i ≠ h0 → hget heapF i = hget heap i) ∧
        heapF.length = heap.length := by
  intro ks
  induction ks with
  | nil =>
    intro heap removed order heapF r h
    simp only [taCheckpointsH] at h
    have hh : heapF = heap := (congrArg Prod.fst (Option.some.inj h)).symm
    subst hh
    exact ⟨fun i _ => rfl, rfl⟩
  | cons k ks ih =>
    intro heap removed order heapF r h
    simp only [taCheckpointsH] at h
    split at h
    · cases h
    · rename_i heap1 heq1
      have hh : heapF = heap1 := (congrArg Prod.fst (Option.some.inj h)).symm
      subst hh
      exact taLoopH_frame orc key adaptive h0 _ heap removed order k heapF
        PyResult.exn heq1
    · rename_i heap1 st heq1
      obtain ⟨hf1, hl1⟩ := taLoopH_frame orc key adaptive h0 _ heap removed
        order k heap1 (PyResult.ok st) heq1
      split at h
      · cases h
      · rename_i heapG heq2
        have hh : heapF = heapG := (congrArg Prod.fst (Option.some.inj h)).symm
        subst hh
        obtain ⟨hf2, hl2⟩ := ih heap1 st.1 st.2 heapF PyResult.exn heq2
        exact ⟨fun i hi => by rw [hf2 i hi, hf1 i hi], by rw [hl2, hl1]⟩
      · rename_i heapG recs2 heq2
        have hh : heapF = heapG := (congrArg Prod.fst (Option.some.inj h)).symm
        subst hh
        obtain ⟨hf2, hl2⟩ := ih heap1 st.1 st.2 heapF (PyResult.ok recs2) heq2
        exact ⟨fun i hi => by rw [hf2 i hi, hf1 i hi], by rw [hl2, hl1]⟩

theorem simulate_targeted_attackH_preserves (orc : CentralityOracles)
    (key : AttackKey) (adaptive : Bool) (heap : List Graph) (h steps : Nat)
    (max_frac : ℚ) (hh : h < heap.length) :
    preservesHandle h heap
      (simulate_targeted_attackH orc key adaptive heap h steps max_frac) := by
  intro pr hpr
  obtain ⟨p1, p2⟩ := pr
  simp only [simulate_targeted_attackH] at hpr
  show hget p1 h = hget heap h
  split at hpr
  · have hh1 : p1 = heap ++ [hget heap h] :=
      (congrArg Prod.fst (Option.some.inj hpr)).symm
    rw [hh1]
    exact hget_append_lt heap _ h hh
  · rename_i order0 heq
    obtain ⟨hf, _⟩ := taCheckpointsH_frame orc key adaptive
      (hget heap h).nodes.length heap.length _ (heap ++ [hget heap h]) ∅
      order0 p1 p2 hpr
    rw [hf h (Nat.ne_of_lt hh)]
    exact hget_append_lt heap _ h hh

theorem raLoopH_frame (h0 : Nat) (perm : List Nat) :
    ∀ (fuel : Nat) (heap : List Graph) (removed : Finset Nat) (k : ℤ)
        (heapF : List Graph) (removedF : Finset Nat),
      raLoopH h0 perm heap removed k fuel = some (heapF, removedF) →
      (∀ i, i ≠ h0 → hget heapF i = hget heap i) ∧
        heapF.length = heap.length := by
  intro fuel
  induction fuel with
  | zero =>
    intro heap removed k heapF removedF h
    simp only [raLoopH] at h
    by_cases hc : (removed.card : ℤ) < k
    · rw [if_pos hc] at h
      cases h
    · rw [if_neg hc] at h
      have hh : heapF = heap := (congrArg Prod.fst (Option.some.inj h)).symm
      subst hh
      exact ⟨fun i _ => rfl, rfl⟩
  | succ fuel ih =>
    intro heap removed k heapF removedF h
    simp only [raLoopH] at h
    by_cases hc : (removed.card : ℤ) < k
    · rw [if_pos hc] at h
      by_cases hmem : perm.getD removed.card 0 ∈ (hget heap h0).nodes
      · rw [if_pos hmem] at h
        obtain ⟨hf, hl⟩ := ih (hremove heap h0 (perm.getD removed.card 0))
          (insert (perm.getD removed.card 0) removed) k heapF removedF h
        exact ⟨fun i hi => by
            rw [hf i hi,
              hget_hremove_ne heap h0 (perm.getD removed.card 0) i hi],
          by rw [hl, hremove_length]⟩
      · rw [if_neg hmem] at h
        exact ih heap (insert (perm.getD removed.card 0) removed) k heapF
          removedF h
    · rw [if_neg hc] at h
      have hh : heapF = heap := (congrArg Prod.fst (Option.some.inj h)).symm
      subst hh
      exact ⟨fun i _ => rfl, rfl⟩

theorem raCheckpointsH_frame (t n h0 : Nat) (perm : List Nat) :
    ∀ (ks : List ℤ) (heap : List Graph) (removed : Finset Nat)
        (heapF : List Graph) (recs : List RaRecord),
      raCheckpointsH t n heap h0 perm removed ks = some (heapF, recs) →
      (∀ i, i ≠ h0 → hget heapF i = hget heap i) ∧
        heapF.length = heap.length := by
  intro ks
  induction ks with
  | nil =>
    intro heap removed heapF recs h
    simp only [raCheckpointsH] at h
    have hh : heapF = heap := (congrArg Prod.fst (Option.some.inj h)).symm
    subst hh
    exact ⟨fun i _ => rfl, rfl⟩
  | cons k ks ih =>
    intro heap removed heapF recs h
    simp only [raCheckpointsH] at h
    split at h
    · cases h
    · rename_i heap1 removed1 heq1
      obtain ⟨hf1, hl1⟩ := raLoopH_frame h0 perm (perm.length + 1) heap
        removed k heap1 removed1 heq1
      split at h
      · cases h
      · rename_i heapG recs2 heq2
        have hh : heapF = heapG := (congrArg Prod.fst (Option.some.inj h)).symm
        subst hh
        obtain ⟨hf2, hl2⟩ := ih heap1 removed1 heapF recs2 heq2
        exact ⟨fun i hi => by rw [hf2 i hi, hf1 i hi], by rw [hl2, hl1]⟩

theorem raTrialsH_frame (stream : Nat → Nat) (nodes : List Nat) (cum : List ℤ)
    (n h : Nat) :
    ∀ (remaining : Nat) (heap : List Graph) (t : Nat) (heapF : List Graph)
        (recs : List RaRecord),
      h < heap.length →
      raTrialsH stream nodes cum n heap h t remaining = some (heapF, recs) →
      hget heapF h = hget heap h := by
  intro remaining
  induction remaining with
  | zero =>
    intro heap t heapF recs hh hres
    simp only [raTrialsH] at hres
    have hh2 : heapF = heap := (congrArg Prod.fst (Option.some.inj hres)).symm
    rw [hh2]
  | succ remaining ih =>
    intro heap t heapF recs hh hres
    simp only [raTrialsH] at hres
    split at hres
    · cases hres
    · rename_i heap2 recs2 heq2
      split at hres
      · cases hres
      · rename_i heapF2 recsF heq3
        obtain ⟨hf2, hl2⟩ := raCheckpointsH_frame t n heap.length
          (shuffleWith stream (t * (nodes.length + 1)) nodes) cum
          (heap ++ [hget heap h]) ∅ heap2 recs2 heq2
        have hhget2 : hget heap2 h = hget heap h := by
          rw [hf2 h (Nat.ne_of_lt hh)]
          exact hget_append_lt heap _ h hh
        have hlen2 : heap2.length = heap.length + 1 := by
          rw [hl2]
          simp
        have hlt2 : h < heap2.length := by omega
        have hmain := ih heap2 (t + 1) heapF2 recsF hlt2 heq3
        have hh4 : heapF = heapF2 :=
          (congrArg Prod.fst (Option.some.inj hres)).symm
        rw [hh4, hmain, hhget2]

theorem simulate_random_attacksH_preserves (stream : Nat → Nat)
    (heap : List Graph) (h trials steps : Nat) (max_frac : ℚ)
    (hh : h < heap.length) :
    preservesHandle h heap
      (simulate_random_attacksH stream heap h trials steps max_frac) := by
  intro pr hpr
  obtain ⟨p1, p2⟩ := pr
  simp only [simulate_random_attacksH] at hpr
  show hget p1 h = hget heap h
  exact raTrialsH_frame stream (hget heap h).nodes
    (removal_sequence_by_fraction (hget heap h).nodes steps max_frac)
    (hget heap h).nodes.length h trials heap 0 p1 p2 hh hpr

/-- C2: the three simulations never mutate the caller's graph object.
`removal_curve` (analysis_re.py) and `simulate_targeted_attack` /
`simulate_random_attacks` (attack.py) each start from `G.copy()` — a fresh
slot in the object store — and perform every `remove_node` on that copy, so
whenever a run returns, the object at any caller-held handle `h` still has
exactly the node list, edge list and attributes it had before the call. -/
theorem simulations_preserve_caller_graph (orc : CentralityOracles)
    (key : AttackKey) (adaptive : Bool) (stream : Nat → Nat)
    (heap : List Graph) (h : Nat) (nodes_order : List Nat) (qs : List ℚ)
    (m_pairs effFuel trials steps steps2 : Nat) (max_frac max_frac2 : ℚ)
    (hh : h < heap.length) :
    preservesHandle h heap
      (removal_curveH heap h nodes_order qs m_pairs effFuel) ∧
    preservesHandle h heap
      (simulate_targeted_attackH orc key adaptive heap h steps max_frac) ∧
    preservesHandle h heap
      (simulate_random_attacksH stream heap h trials steps2 max_frac2) :=
  ⟨removal_curveH_preserves heap h nodes_order qs m_pairs effFuel hh,
   simulate_targeted_attackH_preserves orc key adaptive heap h steps
     max_frac hh,
   simulate_random_attacksH_preserves stream heap h trials steps2
     max_frac2 hh⟩

/-- Witness for C2: a store holding one triangle, attacked by all three
simulations through handle `0`. -/
theorem simulations_preserve_caller_graph_witness :
    0 < ([triangleGraph] : List Graph).length ∧
    (preservesHandle 0 [triangleGraph]
        (removal_curveH [triangleGraph] 0 [1, 2, 3] [0, 1] 0 9) ∧
      preservesHandle 0 [triangleGraph]
        (simulate_targeted_attackH trivOracles AttackKey.degree false
          [triangleGraph] 0 3 1) ∧
      preservesHandle 0 [triangleGraph]
        (simulate_random_attacksH (fun _ => 0) [triangleGraph] 0 1 3 1)) :=
  ⟨by decide,
   simulations_preserve_caller_graph trivOracles AttackKey.degree false
     (fun _ => 0) [triangleGraph] 0 [1, 2, 3] [0, 1] 0 9 1 3 3 1 1
     (by decide)⟩

end FlightNet
